import Mathlib

/-!
# string_api: a verification development

A shallow embedding of `src/string_api.h` (namespace `StringAPI`) and theorems about it.

## Data model

* A `std::string_view` (and the `std::string` that `BatchReplace_impl::In` returns) is the
  list of the characters it spans: `string_view := List Char`.
* An iterator (a `const char*`) into a view `Source` is the offset from `Source.begin()`, a
  natural number; `Source.end()` is `Source.length`.  Offsets are not clamped, so that an
  expression such as `Search(...).In(Source) + LeftBound.length()` may exceed `Source.length`
  exactly as the pointer may lie beyond `Source.end()` in the code.
* `std::string_view{First, Last}` built from two offsets into `Source` is `view Source First Last`.
  When `First` lies beyond `Last` the C++ object is ill-formed; it is modelled as a view without
  characters that starts at `First`, in which a search finds an empty pattern only.
* In `BatchReplace_impl::In`, where no iterator leaves the source, an iterator is represented
  by the view from it to `SourceEnd`.
* A lazy sequence (the template parameter `AncestorRange` of `DropIf` and `Take`) is a
  `LazyRange`: `begin`, the test against `end()`, `operator*` and `operator++` of its cursor.
* The `const char* Exclude` of `Trim` is the list of the characters of that C string.
* Loops that the code does not bound take a `fuel` argument and return `none` when it is
  used up; a loop that never stops returns `none` for every amount of fuel.
* `Result.reserve(n)` throws `std::length_error` when `n` exceeds `max_size()`; the value of
  `max_size()` is a parameter.  Lengths held in a `std::size_t` are taken modulo `2 ^ 64`.
-/

namespace StringAPI

/-- Characters spanned by a `std::string_view`. -/
abbrev string_view := List Char

/-- The 64-bit `std::size_t` modulus. -/
def SIZE_MOD : Nat := 2 ^ 64

/-- `std::string_view{First, Last}` for two offsets into `Source`: the characters at the offsets
`First, ..., Last - 1`.  No characters when `Last ≤ First`. -/
def view (Source : string_view) (First Last : Nat) : string_view :=
  (Source.drop First).take (Last - First)

/-- `std::find(Source.begin(), Source.end(), c)` as an offset: the first offset holding `c`,
`Source.length` when there is none. -/
def find (c : Char) : string_view → Nat
  | [] => 0
  | x :: rest => if x = c then 0 else find c rest + 1

/-- `std::count(Source.begin(), Source.end(), c)`. -/
def count (c : Char) : string_view → Nat
  | [] => 0
  | x :: rest => (if x = c then 1 else 0) + count c rest

/-- `Source.ends_with(c)`. -/
def ends_with (Source : string_view) (c : Char) : Bool :=
  match Source.getLast? with
  | some x => x == c
  | none => false

/-- `Source.contains(x)`: some position of `Source` starts a copy of `x`. -/
def contains : string_view → string_view → Bool
  | [], x => x.isPrefixOf []
  | c :: rest, x => x.isPrefixOf (c :: rest) || contains rest x

/-- `Search::In` (lines 34-42): `std::search` for `Pattern` in `Source`, as an offset from
`Source.begin()`: the first offset at which a copy of `Pattern` starts, and `Source.length`
(that is `Source.end()`) when there is none.  An empty `Pattern` is found at offset 0. -/
def Search.In (Pattern : string_view) : string_view → Nat
  | [] => 0
  | c :: rest => if Pattern.isPrefixOf (c :: rest) then 0 else Search.In Pattern rest + 1

/-- `operator|(Source, After)` (lines 63-68). -/
def After.pipe (Source LeftBound : string_view) : string_view :=
  let Start := Search.In LeftBound Source + LeftBound.length
  let End := Source.length
  if Start < End then view Source Start End else view Source End End

/-- `operator|(Source, Between)` (lines 75-80).  `End` is the offset, from `Source.begin()`, that
the search in the view `{Start, Source.end()}` returns. -/
def Between.pipe (Source LeftBound RightBound : string_view) : string_view :=
  let Start := Search.In LeftBound Source + LeftBound.length
  let End := Start + Search.In RightBound (view Source Start Source.length)
  if Start < End then view Source Start End else view Source End End

/-- The loop of `Count::In` (lines 92-98).  `NewFound` is an offset into the current `Source`;
the body replaces `Source` by the view from `NewFound + Pattern.length()` to its end and the
increment searches the new `Source`. -/
def Count.In.loop (Pattern : string_view) : Nat → Int → Nat → string_view → Option Int
  | 0, Count, NewFound, Source => if NewFound ≠ Source.length then none else some Count
  | fuel + 1, Count, NewFound, Source =>
    if NewFound ≠ Source.length then
      let Source1 := view Source (NewFound + Pattern.length) Source.length
      Count.In.loop Pattern fuel (Count + 1) (Search.In Pattern Source1) Source1
    else some Count

/-- `Count::In` (lines 87-100): `Count` starts at `-1` and `NewFound` at `Source.begin()`. -/
def Count.In (fuel : Nat) (Pattern Source : string_view) : Option Int :=
  Count.In.loop Pattern fuel (-1) 0 Source

/-- A range-based `for` over a cursor: `for (it = begin; it != end; ++it) yield *it`.
Returns the list of the yielded elements, `none` when `fuel` advances do not reach the end. -/
def rangeFor {Itor α : Type} (ne : Itor → Bool) (deref : Itor → α) (next : Itor → Itor) :
    Nat → Itor → Option (List α)
  | 0, it => if ne it then none else some []
  | fuel + 1, it =>
    if ne it then (rangeFor ne deref next fuel (next it)).map (fun rest => deref it :: rest)
    else some []

/-- `Split::InternalItor` (lines 139-159). -/
structure Split.InternalItor where
  BaseRange : string_view
  Delimiter : Char
deriving DecidableEq, Repr

/-- `Split::InternalItor::operator*`. -/
def Split.InternalItor.deref (it : Split.InternalItor) : string_view :=
  let DelimiterPos := find it.Delimiter it.BaseRange
  view it.BaseRange 0 DelimiterPos

/-- `Split::InternalItor::operator!=(InternalItorSentinel)`. -/
def Split.InternalItor.ne (it : Split.InternalItor) : Bool :=
  !it.BaseRange.isEmpty

/-- `Split::InternalItor::operator++`. -/
def Split.InternalItor.next (it : Split.InternalItor) : Split.InternalItor :=
  let DelimiterPos := find it.Delimiter it.BaseRange
  if DelimiterPos = it.BaseRange.length then
    { it with BaseRange := it.BaseRange.take (it.BaseRange.length - it.BaseRange.length) }
  else
    { it with BaseRange := view it.BaseRange (DelimiterPos + 1) it.BaseRange.length }

/-- `Split::InternalRange` (lines 161-173), the value of `Split{BaseRange}.By(Delimiter)`. -/
structure Split.InternalRange where
  BaseRange : string_view
  Delimiter : Char
deriving DecidableEq, Repr

/-- `Split::By`. -/
def Split.By (BaseRange : string_view) (Delimiter : Char) : Split.InternalRange :=
  { BaseRange := BaseRange, Delimiter := Delimiter }

/-- `Split::InternalRange::begin`. -/
def Split.InternalRange.begin (r : Split.InternalRange) : Split.InternalItor :=
  { BaseRange := r.BaseRange, Delimiter := r.Delimiter }

/-- `Split::InternalRange::size`: `! BaseRange.ends_with(Delimiter) + std::count(...)`. -/
def Split.InternalRange.size (r : Split.InternalRange) : Nat :=
  (if !ends_with r.BaseRange r.Delimiter then 1 else 0) + count r.Delimiter r.BaseRange

/-- The slices a range-based `for` over `Split{..}.By(..)` yields. -/
def Split.InternalRange.toList (fuel : Nat) (r : Split.InternalRange) : Option (List string_view) :=
  rangeFor Split.InternalItor.ne Split.InternalItor.deref Split.InternalItor.next fuel r.begin

/-- `SplitBetween::InternalItor` (lines 185-197). -/
structure SplitBetween.InternalItor where
  BaseRange : string_view
  LeftDelimiter : string_view
  RightDelimiter : string_view
deriving DecidableEq, Repr

/-- `SplitBetween::InternalItor::operator*`: `BaseRange | Between( "", RightDelimiter )`. -/
def SplitBetween.InternalItor.deref (it : SplitBetween.InternalItor) : string_view :=
  Between.pipe it.BaseRange [] it.RightDelimiter

/-- `SplitBetween::InternalItor::operator!=(InternalItorSentinel)`. -/
def SplitBetween.InternalItor.ne (it : SplitBetween.InternalItor) : Bool :=
  !it.BaseRange.isEmpty

/-- `SplitBetween::InternalItor::operator++`. -/
def SplitBetween.InternalItor.next (it : SplitBetween.InternalItor) : SplitBetween.InternalItor :=
  let BaseRange1 := After.pipe it.BaseRange it.RightDelimiter
  let BaseRange2 := After.pipe BaseRange1 it.LeftDelimiter
  if !contains BaseRange2 it.RightDelimiter then
    { it with BaseRange := BaseRange2.drop BaseRange2.length }
  else
    { it with BaseRange := BaseRange2 }

/-- `SplitBetween::InternalRange` (lines 199-205), the value of
`Source | SplitBetween{LeftDelimiter, RightDelimiter}`. -/
structure SplitBetween.InternalRange where
  BaseRange : string_view
  LeftDelimiter : string_view
  RightDelimiter : string_view
deriving DecidableEq, Repr

/-- `operator|(Source, SplitBetween)` (lines 207-210). -/
def SplitBetween.pipe (Source LeftDelimiter RightDelimiter : string_view) :
    SplitBetween.InternalRange :=
  { BaseRange := Source, LeftDelimiter := LeftDelimiter, RightDelimiter := RightDelimiter }

/-- `SplitBetween::InternalRange::begin`. -/
def SplitBetween.InternalRange.begin (r : SplitBetween.InternalRange) :
    SplitBetween.InternalItor :=
  { BaseRange := After.pipe r.BaseRange r.LeftDelimiter
    LeftDelimiter := r.LeftDelimiter
    RightDelimiter := r.RightDelimiter }

/-- The slices a range-based `for` over `Source | SplitBetween{..}` yields. -/
def SplitBetween.InternalRange.toList (fuel : Nat) (r : SplitBetween.InternalRange) :
    Option (List string_view) :=
  rangeFor SplitBetween.InternalItor.ne SplitBetween.InternalItor.deref
    SplitBetween.InternalItor.next fuel r.begin

/-- What `BatchReplace_impl::In` can throw: `Result.reserve` with a request above
`max_size()`. -/
inductive exception where
  | length_error
deriving DecidableEq, Repr

/-- `BatchReplaceSubstitutionPair` (`std::array<std::string_view, 2>`): `.1` is element `[0]`,
the token, and `.2` is element `[1]`, its replacement. -/
abbrev BatchReplaceSubstitutionPair := string_view × string_view

/-- `BatchReplace_impl`: the vector of substitution pairs. -/
abbrev BatchReplace_impl := List BatchReplaceSubstitutionPair

/-- The first loop of `BatchReplace_impl::In` (lines 297-301): `TotalLength` starts from
`Source.length()` and every pair adds
`(pair[1].length() - pair[0].length()) * Count(pair[0]).In(Source)` in `std::size_t`
arithmetic, that is modulo `2 ^ 64`.  `none` when a `Count` does not return. -/
def BatchReplace_impl.In.TotalLength (fuel : Nat) (T : BatchReplace_impl)
    (Source : string_view) : Option Nat :=
  T.foldlM
    (fun (TotalLength : Nat) (SubstitutionPair : BatchReplaceSubstitutionPair) =>
      (Count.In fuel SubstitutionPair.1 Source).map fun n =>
        (((TotalLength : Int)
          + ((SubstitutionPair.2.length : Int) - (SubstitutionPair.1.length : Int)) * n)
            % (SIZE_MOD : Int)).toNat)
    (Source.length % SIZE_MOD)

/-- `std::find(It, SourceEnd, c)` inside `BatchReplace_impl::In`.  There an iterator is
represented by the view from it to `SourceEnd`, so that `SourceEnd` is `[]`; the result is the
view that starts at the first `c`, `[]` when there is none. -/
def BatchReplace_impl.In.find (c : Char) (It : string_view) : string_view :=
  It.drop (StringAPI.find c It)

/-- `std::string_view{First, Last}` for two iterators of `BatchReplace_impl::In`, `Last` not
before `First`. -/
def BatchReplace_impl.In.span (First Last : string_view) : string_view :=
  First.take (First.length - Last.length)

/-- The inner loop of `BatchReplace_impl::In` (lines 311-313), which moves `TokenStart` from one
`'$'` to the next until it is followed by `'{'`.  The two-character view at a `'$'` that is the
last character of `Source` reaches one character beyond `SourceEnd`; that character is not part
of the model, and the view is taken to differ from the text of the marker. -/
def BatchReplace_impl.In.skip : Nat → string_view → Option string_view
  | 0, TokenStart =>
    if TokenStart ≠ [] ∧ TokenStart.take 2 ≠ ['$', '{'] then none else some TokenStart
  | fuel + 1, TokenStart =>
    if TokenStart ≠ [] ∧ TokenStart.take 2 ≠ ['$', '{'] then
      BatchReplace_impl.In.skip fuel (BatchReplace_impl.In.find '$' (TokenStart.drop 1))
    else some TokenStart

/-- The main loop of `BatchReplace_impl::In` (lines 307-337). -/
def BatchReplace_impl.In.loop (T : BatchReplace_impl) :
    Nat → string_view → string_view → Option string_view
  | 0, Result, SourceBegin => if SourceBegin ≠ [] then none else some Result
  | fuel + 1, Result, SourceBegin =>
    if SourceBegin ≠ [] then
      match BatchReplace_impl.In.skip fuel (BatchReplace_impl.In.find '$' SourceBegin) with
      | none => none
      | some TokenStart =>
        let Result1 := Result ++ BatchReplace_impl.In.span SourceBegin TokenStart
        if TokenStart = [] then some Result1
        else
          let TokenEnd := BatchReplace_impl.In.find '}' (TokenStart.drop 2)
          if TokenEnd = [] then some (Result1 ++ TokenStart)
          else
            let TokenEnd1 := TokenEnd.drop 1
            let ReplaceToken := BatchReplace_impl.In.span TokenStart TokenEnd1
            match T.find? (fun E => ReplaceToken == E.1) with
            | some ReplaceString =>
              BatchReplace_impl.In.loop T fuel (Result1 ++ ReplaceString.2) TokenEnd1
            | none => BatchReplace_impl.In.loop T fuel (Result1 ++ ReplaceToken) TokenEnd1
    else some Result

/-- `BatchReplace_impl::In` (lines 294-338): the size estimate, `Result.reserve`, which throws
`std::length_error` for a request above `max_size`, and the rewriting loop.  `none` when a loop
does not come to its end within `fuel` rounds. -/
def BatchReplace_impl.In (max_size fuel : Nat) (T : BatchReplace_impl)
    (Source : string_view) : Option (Except exception string_view) :=
  match BatchReplace_impl.In.TotalLength fuel T Source with
  | none => none
  | some TotalLength =>
    if max_size < TotalLength then some (Except.error exception.length_error)
    else (BatchReplace_impl.In.loop T fuel [] Source).map Except.ok

/-- Spec wording (§4.3 and §8), not the code: the number of non-overlapping occurrences of a
non-empty `Pattern` in `Source`, scanning left to right and resuming immediately after the end
of each match.  `Source.length` rounds of `fuel` reach the end of `Source`. -/
def nonOverlappingOccurrences.scan (Pattern : string_view) : Nat → string_view → Nat
  | 0, _ => 0
  | fuel + 1, Source =>
    if Pattern.isPrefixOf Source then
      nonOverlappingOccurrences.scan Pattern fuel (Source.drop Pattern.length) + 1
    else nonOverlappingOccurrences.scan Pattern fuel (Source.drop 1)

/-- Spec wording (§4.3 and §8): the number `k` of non-overlapping occurrences of `Pattern` in
`Source`. -/
def nonOverlappingOccurrences (Pattern Source : string_view) : Nat :=
  nonOverlappingOccurrences.scan Pattern Source.length Source

/-- The source `<x_1><x_2>...<x_n>` of a list of texts. -/
def bracketed (xs : List string_view) : string_view :=
  (xs.map fun x => ['<'] ++ x ++ ['>']).flatten

/-- Claim wording (C1), not the code: a piece of a source is plain text or a token
`${name}`. -/
inductive Piece where
  | plain (text : string_view)
  | token (name : string_view)
deriving DecidableEq, Repr

/-- Claim wording (C1): the text of a piece. -/
def Piece.text : Piece → string_view
  | Piece.plain t => t
  | Piece.token n => ['$', '{'] ++ n ++ ['}']

/-- Claim wording (C1): plain text contains no `$`, a token name contains no closing brace. -/
def Piece.wellFormed : Piece → Prop
  | Piece.plain t => '$' ∉ t
  | Piece.token n => '}' ∉ n

instance (p : Piece) : Decidable p.wellFormed := by
  cases p <;> unfold Piece.wellFormed <;> infer_instance

/-- Claim wording (C1): a plain piece is copied, a token piece is replaced by the replacement of
the first table entry whose token equals it, and stays as it is when no entry does. -/
def Piece.replaced (T : BatchReplace_impl) : Piece → string_view
  | Piece.plain t => t
  | Piece.token n => (List.lookup (['$', '{'] ++ n ++ ['}']) T).getD (['$', '{'] ++ n ++ ['}'])

/-- `TestSuite::TestBatchReplace`, the table. -/
def TestSuite.table : BatchReplace_impl :=
  [("${item1}".toList, " item 1".toList), ("${a  b c}".toList, "[ a b c ]".toList),
   ("${k}".toList, "1234".toList), ("${unused}".toList, "1231123".toList),
   ("${last}".toList, "!~LAST~!".toList)]

/-- `Source.find_first_not_of(Exclude)`: the first offset whose character is not one of
`Exclude`, `none` for `npos`. -/
def find_first_not_of (Exclude : string_view) : string_view → Option Nat
  | [] => none
  | x :: rest =>
    if x ∈ Exclude then (find_first_not_of Exclude rest).map (fun pos => pos + 1) else some 0

/-- `Source.find_last_not_of(Exclude)`: the last offset whose character is not one of
`Exclude`, that is `Source.length - 1 - i` for the first such offset `i` counted from the back;
`none` for `npos`. -/
def find_last_not_of (Exclude Source : string_view) : Option Nat :=
  (find_first_not_of Exclude Source.reverse).map fun i => Source.length - 1 - i

/-- `operator|(Source, Trim)` (lines 46-57).  `Exclude` is a C string: the list holds its
characters before the terminating NUL.  `remove_prefix(n)` drops `n` characters from the front
and `remove_suffix(n)` keeps the first `length - n`. -/
def Trim.pipe (Source Exclude : string_view) : string_view :=
  let Source1 :=
    match find_first_not_of Exclude Source with
    | some pos => Source.drop pos
    | none => Source.drop Source.length
  match find_last_not_of Exclude Source1 with
  | some pos => Source1.take (Source1.length - (Source1.length - pos - 1))
  | none => Source1

/-- A lazy sequence in the cursor protocol, the `AncestorRange` of `DropIf` and `Take`:
`begin()`, `it != end()`, `*it` and `++it`.  `begin` and `next` may run loops of their own
(as those of `DropIf` do); they take the fuel and return `none` when it does not suffice. -/
structure LazyRange (Itor α : Type) where
  begin : Nat → Option Itor
  ne : Itor → Bool
  deref : Itor → α
  next : Nat → Itor → Option Itor

/-- The body of a range-based `for` over a `LazyRange`, from the cursor `it`: at most the given
number of rounds, each operation with the budget `fuel`. -/
def LazyRange.loop {Itor α : Type} (r : LazyRange Itor α) (fuel : Nat) :
    Nat → Itor → Option (List α)
  | 0, it => if r.ne it then none else some []
  | rounds + 1, it =>
    if r.ne it then
      match r.next fuel it with
      | none => none
      | some it1 => (LazyRange.loop r fuel rounds it1).map (fun rest => r.deref it :: rest)
    else some []

/-- The elements a range-based `for` over a `LazyRange` yields. -/
def LazyRange.toList {Itor α : Type} (r : LazyRange Itor α) (fuel : Nat) : Option (List α) :=
  match r.begin fuel with
  | none => none
  | some it => r.loop fuel fuel it

/-- `Split{..}.By(..)` as a `LazyRange`. -/
def Split.InternalRange.range (r : Split.InternalRange) :
    LazyRange Split.InternalItor string_view :=
  { begin := fun _ => some r.begin
    ne := Split.InternalItor.ne
    deref := Split.InternalItor.deref
    next := fun _ it => some it.next }

/-- `Source | SplitBetween{..}` as a `LazyRange`. -/
def SplitBetween.InternalRange.range (r : SplitBetween.InternalRange) :
    LazyRange SplitBetween.InternalItor string_view :=
  { begin := fun _ => some r.begin
    ne := SplitBetween.InternalItor.ne
    deref := SplitBetween.InternalItor.deref
    next := fun _ it => some it.next }

/-- `Take::InternalItor` (lines 266-278). -/
structure Take.InternalItor (AncestorItor : Type) where
  BaseItor : AncestorItor
  N : Int

/-- `operator|(SourceRange, Take)` (lines 253-281): `begin()` pairs the ancestor's cursor with
`N`; `operator!=` is `N > 0 && BaseItor != RHS`; `operator++` is `if( N-- > 0 ) ++BaseItor`. -/
def Take.pipe {Itor α : Type} (SourceRange : LazyRange Itor α) (N : Int) :
    LazyRange (Take.InternalItor Itor) α :=
  { begin := fun fuel =>
      (SourceRange.begin fuel).map fun b => { BaseItor := b, N := N }
    ne := fun it => decide (it.N > 0) && SourceRange.ne it.BaseItor
    deref := fun it => SourceRange.deref it.BaseItor
    next := fun fuel it =>
      if it.N > 0 then
        (SourceRange.next fuel it.BaseItor).map fun b => { BaseItor := b, N := it.N - 1 }
      else some { BaseItor := it.BaseItor, N := it.N - 1 } }

/-- The loop `while( ( First != BaseRange.end() ) && DropCondition( *First ) ) ++First` of
`DropIf` (lines 228 and 245). -/
def DropIf.skip {Itor α : Type} (SourceRange : LazyRange Itor α) (DropCondition : α → Bool)
    (fuel : Nat) : Nat → Itor → Option Itor
  | 0, First =>
    if SourceRange.ne First && DropCondition (SourceRange.deref First) then none else some First
  | rounds + 1, First =>
    if SourceRange.ne First && DropCondition (SourceRange.deref First) then
      match SourceRange.next fuel First with
      | none => none
      | some First1 => DropIf.skip SourceRange DropCondition fuel rounds First1
    else some First

/-- `operator|(SourceRange, DropIf)` (lines 214-250).  The cursor is the ancestor's cursor
`BaseItor`; `begin()` and `operator++` run the skipping loop, the latter after `++BaseItor`. -/
def DropIf.pipe {Itor α : Type} (SourceRange : LazyRange Itor α) (DropCondition : α → Bool) :
    LazyRange Itor α :=
  { begin := fun fuel =>
      match SourceRange.begin fuel with
      | none => none
      | some First => DropIf.skip SourceRange DropCondition fuel fuel First
    ne := SourceRange.ne
    deref := SourceRange.deref
    next := fun fuel BaseItor =>
      match SourceRange.next fuel BaseItor with
      | none => none
      | some BaseItor1 => DropIf.skip SourceRange DropCondition fuel fuel BaseItor1 }

/-- The loop of `Split_::By` (lines 117-125).  `RangeBegin` and `DelimiterPos` are offsets into
`BaseRange`, `RangeEnd` is `BaseRange.length`, and `Result` is the vector built so far. -/
def Split_.By.loop (BaseRange : string_view) (Delimiter : Char) :
    Nat → List string_view → Nat → Option (List string_view)
  | 0, Result, RangeBegin => if RangeBegin ≠ BaseRange.length then none else some Result
  | fuel + 1, Result, RangeBegin =>
    if RangeBegin ≠ BaseRange.length then
      let DelimiterPos :=
        RangeBegin + find Delimiter (view BaseRange RangeBegin BaseRange.length)
      let Result1 := Result ++ [view BaseRange RangeBegin DelimiterPos]
      if DelimiterPos = BaseRange.length then
        Split_.By.loop BaseRange Delimiter fuel Result1 BaseRange.length
      else Split_.By.loop BaseRange Delimiter fuel Result1 (DelimiterPos + 1)
    else some Result

/-- `Split_::By` (lines 109-128).  The request `std::count(..) + 1` of `Result.reserve` is at
most `BaseRange.length() + 1`; it only sets the capacity. -/
def Split_.By (fuel : Nat) (BaseRange : string_view) (Delimiter : Char) :
    Option (List string_view) :=
  Split_.By.loop BaseRange Delimiter fuel [] 0

/-! ## Lemmas on the helpers -/

theorem view_to_end (s : string_view) (a : Nat) : view s a s.length = s.drop a := by
  unfold view
  apply List.take_of_length_le
  simp

theorem view_empty (s : string_view) (a : Nat) : view s a a = [] := by
  simp [view]

theorem view_zero (s : string_view) (b : Nat) : view s 0 b = s.take b := by
  simp [view]

theorem view_append_left (p m r : string_view) :
    view (p ++ m ++ r) p.length (p.length + m.length) = m := by
  simp [view]

theorem find_le (c : Char) (s : string_view) : find c s ≤ s.length := by
  induction s with
  | nil => simp [find]
  | cons x rest ih =>
    unfold find
    split
    · exact Nat.zero_le _
    · simpa using ih

theorem find_of_not_mem (c : Char) (t : string_view) (h : c ∉ t) : find c t = t.length := by
  induction t with
  | nil => rfl
  | cons x rest ih =>
    have hx : x ≠ c := fun hc => h (by simp [hc])
    have hr : c ∉ rest := fun hm => h (List.mem_cons_of_mem _ hm)
    simp [find, hx, ih hr]

theorem find_append_of_not_mem (c : Char) (t r : string_view) (h : c ∉ t) :
    find c (t ++ c :: r) = t.length := by
  induction t with
  | nil => simp [find]
  | cons x rest ih =>
    have hx : x ≠ c := fun hc => h (by simp [hc])
    have hr : c ∉ rest := fun hm => h (List.mem_cons_of_mem _ hm)
    simp [find, hx, ih hr]

theorem find_decomp (d : Char) (s : string_view) :
    (d ∉ s ∧ find d s = s.length) ∨
    ∃ a r : string_view, d ∉ a ∧ s = a ++ d :: r ∧ find d s = a.length := by
  induction s with
  | nil => left; simp [find]
  | cons x rest ih =>
    by_cases hx : x = d
    · right
      exact ⟨[], rest, by simp, by simp [hx], by simp [find, hx]⟩
    · rcases ih with ⟨h1, h2⟩ | ⟨a, r, h1, h2, h3⟩
      · left
        refine ⟨?_, by simp [find, hx, h2]⟩
        intro hm
        rcases List.mem_cons.mp hm with h | h
        · exact hx h.symm
        · exact h1 h
      · right
        refine ⟨x :: a, r, ?_, by simp [h2], by simp [find, hx, h3]⟩
        intro hm
        rcases List.mem_cons.mp hm with h | h
        · exact hx h.symm
        · exact h1 h

theorem count_eq_count (d : Char) (s : string_view) : count d s = List.count d s := by
  induction s with
  | nil => rfl
  | cons x rest ih =>
    by_cases hx : x = d
    · simp [count, hx, ih, Nat.add_comm]
    · simp [count, hx, ih, List.count_cons]

theorem ends_with_of_not_mem (d : Char) (s : string_view) (h : d ∉ s) :
    ends_with s d = false := by
  unfold ends_with
  cases hl : s.getLast? with
  | none => rfl
  | some x =>
    have hx : x ∈ s := List.mem_of_getLast?_eq_some hl
    have : x ≠ d := fun hc => h (hc ▸ hx)
    simpa using this

theorem ends_with_append_cons (d : Char) (a r : string_view) :
    ends_with (a ++ d :: r) d = if r = [] then true else ends_with r d := by
  cases r with
  | nil => simp [ends_with]
  | cons y r1 =>
    have h : (y :: r1).getLast? = some ((y :: r1).getLast (List.cons_ne_nil y r1)) :=
      List.getLast?_eq_getLast _ _
    simp only [ends_with, List.getLast?_append, List.getLast?_cons_cons, h, Option.or_some]
    simp

theorem contains_iff (s x : string_view) : contains s x = true ↔ x <:+: s := by
  induction s with
  | nil =>
    simp only [contains, List.isPrefixOf_iff_prefix, List.prefix_nil, List.infix_nil]
  | cons c rest ih =>
    simp only [contains, Bool.or_eq_true, List.isPrefixOf_iff_prefix, ih, List.infix_cons_iff]

/-! ## Search -/

theorem Search_In_le (P s : string_view) : Search.In P s ≤ s.length := by
  induction s with
  | nil => simp [Search.In]
  | cons c rest ih =>
    unfold Search.In
    split
    · exact Nat.zero_le _
    · simpa using ih

/-- Where `Pattern` occurs at all, the offset returned by `Search::In` starts a copy of it. -/
theorem Search_In_found (P s : string_view) (h : P <:+: s) :
    P <+: s.drop (Search.In P s) := by
  induction s with
  | nil =>
    have hP : P = [] := List.eq_nil_of_infix_nil h
    subst hP
    simp [Search.In]
  | cons c rest ih =>
    unfold Search.In
    split
    · next hp => simpa using List.isPrefixOf_iff_prefix.mp hp
    · next hp =>
      have hnp : ¬ P <+: c :: rest := fun hh => hp (List.isPrefixOf_iff_prefix.mpr hh)
      rcases List.infix_cons_iff.mp h with h1 | h1
      · exact absurd h1 hnp
      · simpa using ih h1

/-- No copy of `Pattern` starts before the offset returned by `Search::In`. -/
theorem Search_In_first (P : string_view) :
    ∀ (s q r : string_view), s = q ++ P ++ r → Search.In P s ≤ q.length := by
  intro s
  induction s with
  | nil => intro q r _; simp [Search.In]
  | cons c rest ih =>
    intro q r h
    unfold Search.In
    split
    · exact Nat.zero_le _
    · next hp =>
      have hnp : ¬ P <+: c :: rest := fun hh => hp (List.isPrefixOf_iff_prefix.mpr hh)
      cases q with
      | nil =>
        exact absurd ⟨r, by simpa using h.symm⟩ hnp
      | cons d q1 =>
        simp only [List.cons_append, List.cons.injEq] at h
        have := ih q1 r h.2
        simpa using this

/-- When `Pattern` does not occur, `Search::In` returns `Source.end()`. -/
theorem Search_In_absent (P s : string_view) (h : ¬ P <:+: s) :
    Search.In P s = s.length := by
  induction s with
  | nil => simp [Search.In]
  | cons c rest ih =>
    unfold Search.In
    have hnp : ¬ P <+: c :: rest := fun hh => h hh.isInfix
    have hni : ¬ P <:+: rest := fun hh => h (List.infix_cons_iff.mpr (Or.inr hh))
    rw [if_neg (fun hp => hnp (List.isPrefixOf_iff_prefix.mp hp)), ih hni]
    rfl

/-- With a first occurrence of `P` in `s` made explicit, `Search::In` returns its offset. -/
theorem Search_In_eq_of_first (P p t : string_view)
    (hfirst : ∀ q r : string_view, p ++ P ++ t = q ++ P ++ r → p.length ≤ q.length) :
    Search.In P (p ++ P ++ t) = p.length := by
  apply Nat.le_antisymm
  · exact Search_In_first P _ p t rfl
  · have hin : P <:+: p ++ P ++ t := ⟨p, t, rfl⟩
    obtain ⟨r, hr⟩ := Search_In_found P _ hin
    have hle := Search_In_le P (p ++ P ++ t)
    have h1 := hfirst ((p ++ P ++ t).take (Search.In P (p ++ P ++ t))) r
      (by rw [List.append_assoc _ P r, hr, List.take_append_drop])
    rw [List.length_take, Nat.min_eq_left hle] at h1
    exact h1

/-- A character that does not occur in `x` first occurs in `x ++ [c] ++ t` right after `x`. -/
theorem first_of_not_mem (c : Char) (x t : string_view) (hx : c ∉ x) :
    ∀ q r : string_view, x ++ [c] ++ t = q ++ [c] ++ r → x.length ≤ q.length := by
  induction x with
  | nil => intro q r _; exact Nat.zero_le _
  | cons a x1 ih =>
    intro q r h
    cases q with
    | nil =>
      simp only [List.cons_append, List.nil_append, List.cons.injEq] at h
      exact absurd h.1.symm (by intro hc; exact hx (by simp [hc]))
    | cons b q1 =>
      simp only [List.cons_append, List.cons.injEq] at h
      have := ih (fun hm => hx (List.mem_cons_of_mem _ hm)) q1 r (by simpa using h.2)
      simpa using this

/-! ## After and Between -/

theorem After_pipe_of_first (L p t : string_view)
    (hfirst : ∀ q r : string_view, p ++ L ++ t = q ++ L ++ r → p.length ≤ q.length) :
    After.pipe (p ++ L ++ t) L = t := by
  unfold After.pipe
  rw [Search_In_eq_of_first L p t hfirst]
  simp only []
  split
  · rw [view_to_end]
    simp
  · next h =>
    have ht : t = [] := by
      apply List.eq_nil_of_length_eq_zero
      simp only [List.length_append] at h
      omega
    subst ht
    simp [view]

theorem After_pipe_of_absent (L s : string_view) (h : ¬ L <:+: s) : After.pipe s L = [] := by
  unfold After.pipe
  rw [Search_In_absent L s h]
  simp [view]

theorem Between_pipe_of_absent (L R s : string_view) (h : ¬ L <:+: s) :
    Between.pipe s L R = [] := by
  have hL : 0 < L.length := by
    cases L with
    | nil => exact absurd (List.nil_infix (l := s)) h
    | cons c l => simp
  unfold Between.pipe
  rw [Search_In_absent L s h]
  have hv : view s (s.length + L.length) s.length = [] := by
    simp [view]
  simp only [hv]
  simp [Search.In, view]

theorem Between_pipe_of_first (L R p t : string_view)
    (hfirst : ∀ q r : string_view, p ++ L ++ t = q ++ L ++ r → p.length ≤ q.length) :
    Between.pipe (p ++ L ++ t) L R = t.take (Search.In R t) := by
  unfold Between.pipe
  rw [Search_In_eq_of_first L p t hfirst]
  have hv : view (p ++ L ++ t) (p.length + L.length) (p ++ L ++ t).length = t := by
    rw [view_to_end]
    simp
  simp only [hv]
  split
  · simp [view]
  · next h =>
    have h0 : Search.In R t = 0 := by omega
    simp [view, h0]

theorem After_pipe_char (c : Char) (x t : string_view) (hx : c ∉ x) :
    After.pipe (x ++ c :: t) [c] = t := by
  have := After_pipe_of_first [c] x t (first_of_not_mem c x t hx)
  simpa using this

theorem Between_pipe_empty_char (c : Char) (x t : string_view) (hx : c ∉ x) :
    Between.pipe (x ++ c :: t) [] [c] = x := by
  have h1 := Between_pipe_of_first [] [c] [] (x ++ c :: t) (fun q r _ => Nat.zero_le _)
  have h2 := Search_In_eq_of_first [c] x t (first_of_not_mem c x t hx)
  simp only [List.nil_append, List.append_assoc, List.singleton_append] at h1 h2
  rw [h1, h2]
  simp

/-! ## Count -/

/-- The loop of `Count::In` comes to its end for a non-empty pattern: `Source.length` rounds
are enough. -/
theorem Count_In_loop_terminates (P : string_view) (hP : P ≠ []) :
    ∀ (fuel : Nat) (c : Int) (nf : Nat) (s : string_view),
      nf ≤ s.length → s.length ≤ fuel → ∃ n : Int, Count.In.loop P fuel c nf s = some n := by
  have hPl : 0 < P.length := List.length_pos.mpr hP
  intro fuel
  induction fuel with
  | zero =>
    intro c nf s h1 h2
    have : nf = s.length := by omega
    exact ⟨c, by simp [Count.In.loop, this]⟩
  | succ fuel ih =>
    intro c nf s h1 h2
    unfold Count.In.loop
    by_cases hnf : nf = s.length
    · exact ⟨c, by simp [hnf]⟩
    · rw [if_pos hnf]
      simp only []
      apply ih
      · exact Search_In_le _ _
      · rw [view_to_end, List.length_drop]
        omega

theorem Count_In_terminates (P s : string_view) (hP : P ≠ []) (fuel : Nat)
    (hf : s.length ≤ fuel) : ∃ n : Int, Count.In fuel P s = some n :=
  Count_In_loop_terminates P hP fuel (-1) 0 s (Nat.zero_le _) hf

theorem Count_In_nil (fuel : Nat) (p : string_view) : Count.In fuel p [] = some (-1) := by
  cases fuel <;> simp [Count.In, Count.In.loop]

/-- With the empty pattern and a non-empty source the loop of `Count::In` finds the pattern at
the start of an unchanged `Source` in every round, and does not come to an end. -/
theorem Count_In_loop_empty_pattern (x : Char) (r : string_view) :
    ∀ (fuel : Nat) (c : Int), Count.In.loop [] fuel c 0 (x :: r) = none := by
  intro fuel
  induction fuel with
  | zero => intro c; simp [Count.In.loop]
  | succ fuel ih =>
    intro c
    have hv : view (x :: r) (0 + ([] : string_view).length) (x :: r).length = x :: r := by
      rw [view_to_end]; rfl
    rw [Count.In.loop, if_pos (by simp)]
    simp only [hv]
    exact ih (c + 1)

theorem occurrences_scan_nil (P : string_view) (hP : P ≠ []) (f : Nat) :
    nonOverlappingOccurrences.scan P f [] = 0 := by
  induction f with
  | zero => rfl
  | succ f ih =>
    have hp : P.isPrefixOf [] = false := by
      cases P with
      | nil => exact absurd rfl hP
      | cons c l => rfl
    simp [nonOverlappingOccurrences.scan, hp, ih]

theorem occurrences_scan_fuel (P : string_view) (hP : P ≠ []) :
    ∀ (f1 f2 : Nat) (s : string_view), s.length ≤ f1 → s.length ≤ f2 →
      nonOverlappingOccurrences.scan P f1 s = nonOverlappingOccurrences.scan P f2 s := by
  have hPl : 0 < P.length := List.length_pos.mpr hP
  intro f1
  induction f1 with
  | zero =>
    intro f2 s h1 _
    have : s = [] := List.eq_nil_of_length_eq_zero (by omega)
    subst this
    rw [occurrences_scan_nil P hP, occurrences_scan_nil P hP]
  | succ f1 ih =>
    intro f2 s h1 h2
    cases s with
    | nil => rw [occurrences_scan_nil P hP, occurrences_scan_nil P hP]
    | cons x r =>
      obtain ⟨g, rfl⟩ : ∃ g, f2 = g + 1 := ⟨f2 - 1, by simp at h2; omega⟩
      simp only [List.length_cons] at h1 h2
      unfold nonOverlappingOccurrences.scan
      split
      · rw [ih g _ (by rw [List.length_drop, List.length_cons]; omega)
          (by rw [List.length_drop, List.length_cons]; omega)]
      · exact ih g _ (by simp; omega) (by simp; omega)

theorem occurrences_nil (P : string_view) (hP : P ≠ []) : nonOverlappingOccurrences P [] = 0 :=
  occurrences_scan_nil P hP _

theorem occurrences_of_prefix (P s : string_view) (hP : P ≠ []) (h : P.isPrefixOf s = true) :
    nonOverlappingOccurrences P s = nonOverlappingOccurrences P (s.drop P.length) + 1 := by
  have hPl : 0 < P.length := List.length_pos.mpr hP
  cases s with
  | nil =>
    cases P with
    | nil => exact absurd rfl hP
    | cons c l => simp [List.isPrefixOf] at h
  | cons x r =>
    unfold nonOverlappingOccurrences
    rw [List.length_cons, nonOverlappingOccurrences.scan, if_pos h]
    rw [occurrences_scan_fuel P hP r.length ((x :: r).drop P.length).length _
      (by rw [List.length_drop, List.length_cons]; omega) (Nat.le_refl _)]

theorem occurrences_of_not_prefix (P : string_view) (x : Char) (r : string_view)
    (h : ¬ P.isPrefixOf (x :: r) = true) :
    nonOverlappingOccurrences P (x :: r) = nonOverlappingOccurrences P r := by
  unfold nonOverlappingOccurrences
  rw [List.length_cons, nonOverlappingOccurrences.scan, if_neg h]
  rfl

/-- The spec's count, in terms of `Search::In`: none when the pattern is not found, and one
more than the count of what follows the first occurrence otherwise. -/
theorem occurrences_eq (P : string_view) (hP : P ≠ []) (s : string_view) :
    nonOverlappingOccurrences P s =
      if Search.In P s = s.length then 0
      else nonOverlappingOccurrences P (s.drop (Search.In P s + P.length)) + 1 := by
  induction s with
  | nil => simp [Search.In, occurrences_nil P hP]
  | cons x r ih =>
    by_cases h : P.isPrefixOf (x :: r) = true
    · have hS : Search.In P (x :: r) = 0 := by simp [Search.In, h]
      rw [hS, if_neg (by simp), occurrences_of_prefix P _ hP h]
      simp
    · have hS : Search.In P (x :: r) = Search.In P r + 1 := by simp [Search.In, h]
      rw [hS, occurrences_of_not_prefix P x r h, ih]
      by_cases h2 : Search.In P r = r.length
      · simp [h2]
      · rw [if_neg h2, if_neg (by simpa using h2)]
        have : Search.In P r + 1 + P.length = (Search.In P r + P.length) + 1 := by omega
        rw [this, List.drop_succ_cons]

theorem Count_In_loop_eq (P : string_view) (hP : P ≠ []) :
    ∀ (fuel : Nat) (s : string_view) (c : Int), s.length ≤ fuel →
      Count.In.loop P fuel c (Search.In P s) s = some (c + nonOverlappingOccurrences P s) := by
  have hPl : 0 < P.length := List.length_pos.mpr hP
  intro fuel
  induction fuel with
  | zero =>
    intro s c h
    have : s = [] := List.eq_nil_of_length_eq_zero (by omega)
    subst this
    simp [Count.In.loop, Search.In, occurrences_nil P hP]
  | succ fuel ih =>
    intro s c h
    rw [occurrences_eq P hP s]
    unfold Count.In.loop
    by_cases h2 : Search.In P s = s.length
    · simp [h2]
    · rw [if_pos h2, if_neg h2]
      simp only [view_to_end]
      rw [ih _ (c + 1) (by rw [List.length_drop]; omega)]
      congr 1
      push_cast
      omega

/-- What `Count::In` returns for a non-empty pattern and a non-empty source: the number of
non-overlapping occurrences in the source without its first `Pattern.length()` characters. -/
theorem Count_In_counts_after_leading_chars (P s : string_view) (hP : P ≠ []) (hs : s ≠ [])
    (fuel : Nat) (hf : s.length ≤ fuel) :
    Count.In fuel P s = some (nonOverlappingOccurrences P (s.drop P.length) : Int) := by
  have hsl : 0 < s.length := List.length_pos.mpr hs
  have hPl : 0 < P.length := List.length_pos.mpr hP
  obtain ⟨f, rfl⟩ : ∃ f, fuel = f + 1 := ⟨fuel - 1, by omega⟩
  unfold Count.In
  rw [Count.In.loop, if_pos (by omega)]
  simp only [Nat.zero_add, view_to_end]
  rw [Count_In_loop_eq P hP f _ _ (by rw [List.length_drop]; omega)]
  simp

/-! ## Range-based for -/

/-- More fuel does not change what a range-based `for` yields. -/
theorem rangeFor_mono {Itor α : Type} (ne : Itor → Bool) (deref : Itor → α)
    (next : Itor → Itor) :
    ∀ (fuel k : Nat) (it : Itor) (l : List α),
      rangeFor ne deref next fuel it = some l → rangeFor ne deref next (fuel + k) it = some l := by
  intro fuel
  induction fuel with
  | zero =>
    intro k it l h
    cases hne : ne it with
    | true => simp [rangeFor, hne] at h
    | false =>
      simp only [rangeFor, hne] at h
      cases k <;> simpa [rangeFor, hne] using h
  | succ fuel ih =>
    intro k it l h
    rw [Nat.add_right_comm]
    cases hne : ne it with
    | false => simpa [rangeFor, hne] using h
    | true =>
      simp only [rangeFor, hne, if_true] at h ⊢
      cases hr : rangeFor ne deref next fuel (next it) with
      | none => simp [hr] at h
      | some l1 =>
        rw [ih k (next it) l1 hr]
        simpa [hr] using h

/-- Two runs of one range-based `for` that both come to the end yield the same list. -/
theorem rangeFor_unique {Itor α : Type} (ne : Itor → Bool) (deref : Itor → α)
    (next : Itor → Itor) (f1 f2 : Nat) (it : Itor) (l1 l2 : List α)
    (h1 : rangeFor ne deref next f1 it = some l1) (h2 : rangeFor ne deref next f2 it = some l2) :
    l1 = l2 := by
  have e1 := rangeFor_mono ne deref next f1 f2 it l1 h1
  have e2 := rangeFor_mono ne deref next f2 f1 it l2 h2
  rw [Nat.add_comm] at e2
  rw [e1] at e2
  exact Option.some.inj e2

/-! ## Split -/

theorem Split_next_of_absent (d : Char) (s : string_view) (h : d ∉ s) :
    Split.InternalItor.next { BaseRange := s, Delimiter := d }
      = { BaseRange := [], Delimiter := d } := by
  simp [Split.InternalItor.next, find_of_not_mem d s h]

theorem Split_next_of_present (d : Char) (a r : string_view) (h : d ∉ a) :
    Split.InternalItor.next { BaseRange := a ++ d :: r, Delimiter := d }
      = { BaseRange := r, Delimiter := d } := by
  have hf := find_append_of_not_mem d a r h
  have hne : a.length ≠ (a ++ d :: r).length := by simp
  simp only [Split.InternalItor.next, hf, if_neg hne, view_to_end]
  simp

theorem Split_rangeFor_nil (d : Char) (fuel : Nat) :
    rangeFor Split.InternalItor.ne Split.InternalItor.deref Split.InternalItor.next fuel
      { BaseRange := [], Delimiter := d } = some [] := by
  cases fuel <;> simp [rangeFor, Split.InternalItor.ne]

/-- For a non-empty source `size()` is the number of slices the iteration yields. -/
theorem Split_size_of_nonempty (d : Char) :
    ∀ (fuel : Nat) (s : string_view), s ≠ [] → s.length ≤ fuel →
      ∃ l : List string_view, (Split.By s d).toList fuel = some l ∧
        l.length = (Split.By s d).size := by
  intro fuel
  induction fuel with
  | zero =>
    intro s hs hf
    exact absurd (List.eq_nil_of_length_eq_zero (by omega)) hs
  | succ fuel ih =>
    intro s hs hf
    have hne : Split.InternalItor.ne { BaseRange := s, Delimiter := d } = true := by
      cases s with
      | nil => exact absurd rfl hs
      | cons x r => rfl
    simp only [Split.By, Split.InternalRange.toList, Split.InternalRange.begin,
      Split.InternalRange.size, rangeFor, hne, if_true]
    rcases find_decomp d s with ⟨hmem, _⟩ | ⟨a, r, ha, rfl, _⟩
    · rw [Split_next_of_absent d s hmem, Split_rangeFor_nil]
      refine ⟨_, rfl, ?_⟩
      have hc : count d s = 0 := by
        rw [count_eq_count]
        exact List.count_eq_zero.mpr hmem
      simp [ends_with_of_not_mem d s hmem, hc]
    · rw [Split_next_of_present d a r ha]
      have hc : count d (a ++ d :: r) = count d r + 1 := by
        rw [count_eq_count, count_eq_count, List.count_append, List.count_eq_zero.mpr ha]
        simp
      simp only [ends_with_append_cons, hc]
      by_cases hr : r = []
      · subst hr
        rw [Split_rangeFor_nil]
        refine ⟨_, rfl, ?_⟩
        simp [count]
      · have hlen : r.length ≤ fuel := by
          simp only [List.length_append, List.length_cons] at hf
          omega
        obtain ⟨l, hl1, hl2⟩ := ih r hr hlen
        simp only [Split.By, Split.InternalRange.toList, Split.InternalRange.begin,
          Split.InternalRange.size] at hl1 hl2
        rw [hl1]
        refine ⟨_, rfl, ?_⟩
        simp only [List.length_cons, hl2, if_neg hr]
        omega

/-! ## SplitBetween -/

theorem bracketed_cons (x : string_view) (xs : List string_view) :
    bracketed (x :: xs) = '<' :: (x ++ '>' :: bracketed xs) := by
  simp [bracketed]

/-- From a cursor that stands right after a `<`, the iteration yields the remaining texts. -/
theorem SplitBetween_rangeFor_bracketed :
    ∀ (rest : List string_view) (x : string_view) (fuel : Nat),
      '>' ∉ x → (∀ y ∈ rest, '<' ∉ y ∧ '>' ∉ y) → rest.length + 1 ≤ fuel →
      rangeFor SplitBetween.InternalItor.ne SplitBetween.InternalItor.deref
        SplitBetween.InternalItor.next fuel
        { BaseRange := x ++ '>' :: bracketed rest, LeftDelimiter := ['<'],
          RightDelimiter := ['>'] } = some (x :: rest) := by
  intro rest
  induction rest with
  | nil =>
    intro x fuel hx _ hf
    obtain ⟨f, rfl⟩ : ∃ f, fuel = f + 1 := ⟨fuel - 1, by omega⟩
    have hne : SplitBetween.InternalItor.ne
        { BaseRange := x ++ '>' :: bracketed [], LeftDelimiter := ['<'],
          RightDelimiter := ['>'] } = true := by
      simp [SplitBetween.InternalItor.ne]
    have hnext : SplitBetween.InternalItor.next
        { BaseRange := x ++ '>' :: bracketed [], LeftDelimiter := ['<'],
          RightDelimiter := ['>'] }
        = { BaseRange := [], LeftDelimiter := ['<'], RightDelimiter := ['>'] } := by
      simp only [SplitBetween.InternalItor.next, After_pipe_char '>' x _ hx]
      simp [bracketed, After.pipe, Search.In, view, contains]
    have hderef : SplitBetween.InternalItor.deref
        { BaseRange := x ++ '>' :: bracketed [], LeftDelimiter := ['<'],
          RightDelimiter := ['>'] } = x := by
      simp only [SplitBetween.InternalItor.deref, Between_pipe_empty_char '>' x _ hx]
    rw [rangeFor, hne, if_pos rfl, hnext, hderef]
    cases f <;> simp [rangeFor, SplitBetween.InternalItor.ne]
  | cons y rest ih =>
    intro x fuel hx hrest hf
    obtain ⟨f, rfl⟩ : ∃ f, fuel = f + 1 := ⟨fuel - 1, by omega⟩
    have hy := hrest y (List.mem_cons_self _ _)
    have hne : SplitBetween.InternalItor.ne
        { BaseRange := x ++ '>' :: bracketed (y :: rest), LeftDelimiter := ['<'],
          RightDelimiter := ['>'] } = true := by
      simp [SplitBetween.InternalItor.ne]
    have hleft : After.pipe (bracketed (y :: rest)) ['<'] = y ++ '>' :: bracketed rest := by
      rw [bracketed_cons]
      exact After_pipe_char '<' [] _ (by simp)
    have hcont : contains (y ++ '>' :: bracketed rest) ['>'] = true := by
      rw [contains_iff]
      exact ⟨y, bracketed rest, by simp⟩
    have hnext : SplitBetween.InternalItor.next
        { BaseRange := x ++ '>' :: bracketed (y :: rest), LeftDelimiter := ['<'],
          RightDelimiter := ['>'] }
        = { BaseRange := y ++ '>' :: bracketed rest, LeftDelimiter := ['<'],
            RightDelimiter := ['>'] } := by
      simp only [SplitBetween.InternalItor.next, After_pipe_char '>' x _ hx, hleft, hcont]
      simp
    have hderef : SplitBetween.InternalItor.deref
        { BaseRange := x ++ '>' :: bracketed (y :: rest), LeftDelimiter := ['<'],
          RightDelimiter := ['>'] } = x := by
      simp only [SplitBetween.InternalItor.deref, Between_pipe_empty_char '>' x _ hx]
    rw [rangeFor, hne, if_pos rfl, hnext, hderef,
      ih y f hy.2 (fun z hz => hrest z (List.mem_cons_of_mem _ hz))
        (by simp only [List.length_cons] at hf; omega)]
    rfl

/-! ## BatchReplace -/

theorem BatchReplace_impl_In_find_suffix (c : Char) (s : string_view) :
    BatchReplace_impl.In.find c s <:+ s :=
  List.drop_suffix _ _

theorem BatchReplace_impl_In_span_append (a b : string_view) (h : b <:+ a) :
    BatchReplace_impl.In.span a b ++ b = a := by
  obtain ⟨p, rfl⟩ := h
  simp [BatchReplace_impl.In.span]

theorem BatchReplace_impl_In_span_left (p b : string_view) : BatchReplace_impl.In.span (p ++ b) b = p := by
  unfold BatchReplace_impl.In.span
  rw [List.length_append, Nat.add_sub_cancel]
  exact List.take_left' rfl

theorem BatchReplace_impl_In_skip_nil (fuel : Nat) : BatchReplace_impl.In.skip fuel [] = some [] := by
  cases fuel <;> simp [BatchReplace_impl.In.skip]

theorem BatchReplace_impl_In_skip_at_marker (fuel : Nat) (r : string_view) :
    BatchReplace_impl.In.skip fuel ('$' :: '{' :: r) = some ('$' :: '{' :: r) := by
  cases fuel <;> simp [BatchReplace_impl.In.skip]

/-- The inner loop of `BatchReplace_impl::In` comes to its end, at a position not before its
start. -/
theorem BatchReplace_impl_In_skip_terminates :
    ∀ (fuel : Nat) (ts0 : string_view), ts0.length ≤ fuel →
      ∃ ts, BatchReplace_impl.In.skip fuel ts0 = some ts ∧ ts <:+ ts0 := by
  intro fuel
  induction fuel with
  | zero =>
    intro ts0 h
    have : ts0 = [] := List.eq_nil_of_length_eq_zero (by omega)
    subst this
    exact ⟨[], by simp [BatchReplace_impl.In.skip], List.suffix_refl _⟩
  | succ fuel ih =>
    intro ts0 h
    unfold BatchReplace_impl.In.skip
    split
    · next hc =>
      have hne : ts0 ≠ [] := hc.1
      have hlen : (BatchReplace_impl.In.find '$' (ts0.drop 1)).length ≤ fuel := by
        have h1 := (BatchReplace_impl_In_find_suffix '$' (ts0.drop 1)).length_le
        have h2 : 0 < ts0.length := List.length_pos.mpr hne
        rw [List.length_drop] at h1
        omega
      obtain ⟨ts, h1, h2⟩ := ih _ hlen
      exact ⟨ts, h1, h2.trans ((BatchReplace_impl_In_find_suffix _ _).trans (List.drop_suffix _ _))⟩
    · exact ⟨ts0, rfl, List.suffix_refl _⟩

theorem BatchReplace_impl_find_lookup (T : BatchReplace_impl) (tok : string_view) :
    (T.find? (fun E => tok == E.1)).map (fun E => E.2) = List.lookup tok T := by
  induction T with
  | nil => rfl
  | cons E T ih =>
    obtain ⟨k, v⟩ := E
    simp only [List.find?_cons, List.lookup_cons]
    cases h : tok == k with
    | true => simp
    | false => simpa using ih

theorem BatchReplace_impl_In_loop_plain (T : BatchReplace_impl) (fuel : Nat) (R t : string_view) (ht : '$' ∉ t) :
    BatchReplace_impl.In.loop T (fuel + 1) R t = some (R ++ t) := by
  unfold BatchReplace_impl.In.loop
  by_cases h : t = []
  · simp [h]
  · rw [if_pos h]
    have hf : BatchReplace_impl.In.find '$' t = [] := by
      simp [BatchReplace_impl.In.find, find_of_not_mem '$' t ht]
    rw [hf, BatchReplace_impl_In_skip_nil]
    simp [BatchReplace_impl.In.span]

theorem BatchReplace_impl_In_loop_token (T : BatchReplace_impl) (fuel : Nat) (R t n rest : string_view)
    (ht : '$' ∉ t) (hn : '}' ∉ n) :
    BatchReplace_impl.In.loop T (fuel + 1) R (t ++ ('$' :: '{' :: (n ++ '}' :: rest)))
      = BatchReplace_impl.In.loop T fuel
          (R ++ t ++ (List.lookup (['$', '{'] ++ n ++ ['}']) T).getD (['$', '{'] ++ n ++ ['}']))
          rest := by
  have hsb : t ++ ('$' :: '{' :: (n ++ '}' :: rest)) ≠ [] := by simp
  have hf : BatchReplace_impl.In.find '$' (t ++ ('$' :: '{' :: (n ++ '}' :: rest)))
      = '$' :: '{' :: (n ++ '}' :: rest) := by
    simp [BatchReplace_impl.In.find, find_append_of_not_mem '$' t _ ht]
  have hspan1 : BatchReplace_impl.In.span (t ++ ('$' :: '{' :: (n ++ '}' :: rest)))
      ('$' :: '{' :: (n ++ '}' :: rest)) = t := by
    simp [BatchReplace_impl.In.span]
  have hfe : BatchReplace_impl.In.find '}' (n ++ '}' :: rest) = '}' :: rest := by
    simp [BatchReplace_impl.In.find, find_append_of_not_mem '}' n _ hn]
  have hspan2 : BatchReplace_impl.In.span ('$' :: '{' :: (n ++ '}' :: rest)) rest
      = ['$', '{'] ++ n ++ ['}'] := by
    have := BatchReplace_impl_In_span_left (['$', '{'] ++ n ++ ['}']) rest
    simpa using this
  rw [BatchReplace_impl.In.loop, if_pos hsb, hf, BatchReplace_impl_In_skip_at_marker]
  simp only [hspan1, List.drop_succ_cons, List.drop_zero, hfe, hspan2]
  have hl := BatchReplace_impl_find_lookup T (['$', '{'] ++ n ++ ['}'])
  cases hfind : T.find? (fun E => (['$', '{'] ++ n ++ ['}']) == E.1) with
  | none =>
    rw [hfind] at hl
    simp at hl
    simp [← hl]
  | some E =>
    rw [hfind] at hl
    simp at hl
    simp [← hl]

/-- The rewriting loop on a source made of pieces, after a plain text `t` already scanned. -/
theorem BatchReplace_impl_In_loop_pieces (T : BatchReplace_impl) :
    ∀ (pieces : List Piece), (∀ p ∈ pieces, p.wellFormed) →
      ∀ (fuel : Nat) (R t : string_view), '$' ∉ t →
        (t ++ (pieces.map Piece.text).flatten).length < fuel →
        BatchReplace_impl.In.loop T fuel R (t ++ (pieces.map Piece.text).flatten)
          = some (R ++ t ++ (pieces.map (Piece.replaced T)).flatten) := by
  intro pieces
  induction pieces with
  | nil =>
    intro _ fuel R t ht hf
    obtain ⟨f, rfl⟩ : ∃ f, fuel = f + 1 := ⟨fuel - 1, by omega⟩
    simpa using BatchReplace_impl_In_loop_plain T f R t ht
  | cons p rest ih =>
    intro hwf fuel R t ht hf
    have hp := hwf p (List.mem_cons_self _ _)
    have hrest : ∀ q ∈ rest, q.wellFormed := fun q hq => hwf q (List.mem_cons_of_mem _ hq)
    cases p with
    | plain u =>
      have hu : '$' ∉ u := hp
      have := ih hrest fuel R (t ++ u) (by simp [ht, hu])
        (by simpa [Piece.text, Nat.add_assoc] using hf)
      simpa [Piece.text, Piece.replaced] using this
    | token n =>
      have hn : '}' ∉ n := hp
      obtain ⟨f, rfl⟩ : ∃ f, fuel = f + 1 := ⟨fuel - 1, by omega⟩
      have hstep := BatchReplace_impl_In_loop_token T f R t n (rest.map Piece.text).flatten ht hn
      have hih := ih hrest f
        (R ++ t ++ (List.lookup (['$', '{'] ++ n ++ ['}']) T).getD (['$', '{'] ++ n ++ ['}']))
        [] (by simp) (by simp [Piece.text] at hf ⊢; omega)
      simp only [List.nil_append, List.append_nil] at hih
      simp only [List.map_cons, List.flatten_cons, Piece.text, Piece.replaced]
      simp only [List.cons_append, List.nil_append, List.append_assoc] at hstep hih ⊢
      rw [hstep, hih]

/-- With the empty table the rewriting loop appends the rest of the source unchanged. -/
theorem BatchReplace_impl_In_loop_nil :
    ∀ (fuel : Nat) (R sb : string_view), sb.length < fuel →
      BatchReplace_impl.In.loop [] fuel R sb = some (R ++ sb) := by
  intro fuel
  induction fuel with
  | zero => intro R sb h; omega
  | succ fuel ih =>
    intro R sb h
    unfold BatchReplace_impl.In.loop
    by_cases hsb : sb = []
    · simp [hsb]
    · rw [if_pos hsb]
      have hfs := BatchReplace_impl_In_find_suffix '$' sb
      obtain ⟨ts, hts, hsuf⟩ := BatchReplace_impl_In_skip_terminates fuel
        (BatchReplace_impl.In.find '$' sb) (by have := hfs.length_le; omega)
      have hsuf2 : ts <:+ sb := hsuf.trans hfs
      have hsp := BatchReplace_impl_In_span_append sb ts hsuf2
      rw [hts]
      simp only []
      by_cases hts0 : ts = []
      · rw [if_pos hts0]
        rw [hts0] at hsp
        simp only [List.append_nil] at hsp
        rw [hts0, hsp]
      · rw [if_neg hts0]
        have hte0 := (BatchReplace_impl_In_find_suffix '}' (ts.drop 2)).trans
          (List.drop_suffix 2 ts)
        by_cases hte : BatchReplace_impl.In.find '}' (ts.drop 2) = []
        · rw [if_pos hte, List.append_assoc, hsp]
        · rw [if_neg hte]
          have hte1 : (BatchReplace_impl.In.find '}' (ts.drop 2)).drop 1 <:+ ts :=
            (List.drop_suffix _ _).trans hte0
          have hsp2 := BatchReplace_impl_In_span_append ts _ hte1
          simp only [List.find?_nil]
          rw [ih]
          · rw [List.append_assoc, List.append_assoc, hsp2, hsp]
          · have h1 := hte1.length_le
            have h2 := hsuf2.length_le
            have h3 : 0 < (BatchReplace_impl.In.find '}' (ts.drop 2)).length :=
              List.length_pos.mpr hte
            have h4 := hte0.length_le
            rw [List.length_drop] at h1 ⊢
            omega

theorem BatchReplace_impl_In_TotalLength_fold_terminates (fuel : Nat) (s : string_view) (hf : s.length ≤ fuel) :
    ∀ (T : BatchReplace_impl), (∀ E ∈ T, E.1 ≠ []) → ∀ init : Nat,
      ∃ n : Nat, T.foldlM
        (fun (TotalLength : Nat) (SubstitutionPair : BatchReplaceSubstitutionPair) =>
          (Count.In fuel SubstitutionPair.1 s).map fun n =>
            (((TotalLength : Int)
              + ((SubstitutionPair.2.length : Int) - (SubstitutionPair.1.length : Int)) * n)
                % (SIZE_MOD : Int)).toNat)
        init = some n := by
  intro T
  induction T with
  | nil => intro _ init; exact ⟨init, rfl⟩
  | cons E T ih =>
    intro htok init
    obtain ⟨c, hc⟩ := Count_In_terminates E.1 s (htok E (List.mem_cons_self _ _)) fuel hf
    rw [List.foldlM_cons, hc]
    exact ih (fun E1 h1 => htok E1 (List.mem_cons_of_mem _ h1)) _

theorem BatchReplace_impl_In_TotalLength_terminates (fuel : Nat) (T : BatchReplace_impl) (s : string_view)
    (htok : ∀ E ∈ T, E.1 ≠ []) (hf : s.length ≤ fuel) :
    ∃ n : Nat, BatchReplace_impl.In.TotalLength fuel T s = some n :=
  BatchReplace_impl_In_TotalLength_fold_terminates fuel s hf T htok _

/-- Where the first loop of `In` returns and `reserve` does not throw, `In` rewrites as
described: for a table `T` whose tokens are all non-empty and a source that is a concatenation
of pieces (plain text without `$`, or a token `${name}` whose name has no closing brace), with a
size estimate of at most `max_size()`, `BatchReplace(T).In(source)` returns the concatenation of
the pieces in which every token piece is replaced by the replacement of the first entry of `T`
whose token equals it, a token piece that equals no entry's token stays as it is, and every
plain piece is copied. -/
theorem BatchReplace_pieces (max_size fuel : Nat) (T : BatchReplace_impl) (pieces : List Piece)
    (hwf : ∀ p ∈ pieces, p.wellFormed)
    (htok : ∀ E ∈ T, E.1 ≠ [])
    (hfuel : ((pieces.map Piece.text).flatten).length < fuel)
    (hsize : ∀ n : Nat,
      BatchReplace_impl.In.TotalLength fuel T (pieces.map Piece.text).flatten = some n →
        n ≤ max_size) :
    BatchReplace_impl.In max_size fuel T (pieces.map Piece.text).flatten
      = some (Except.ok (pieces.map (Piece.replaced T)).flatten) := by
  obtain ⟨n, hn⟩ := BatchReplace_impl_In_TotalLength_terminates fuel T _ htok (Nat.le_of_lt hfuel)
  have hle : ¬ max_size < n := Nat.not_lt.mpr (hsize n hn)
  have hloop := BatchReplace_impl_In_loop_pieces T pieces hwf fuel [] [] (by simp) (by simpa using hfuel)
  simp only [List.nil_append] at hloop
  unfold BatchReplace_impl.In
  rw [hn]
  simp only [hle, if_false]
  rw [hloop]
  rfl

/-- The rewriting at the table `{("${x}", "1")}` and the source `${x}-${x}-${y}`: the result is
`1-1-${y}`. -/
theorem BatchReplace_pieces_example :
    BatchReplace_impl.In (2 ^ 62) 20 [("${x}".toList, "1".toList)] "${x}-${x}-${y}".toList
      = some (Except.ok "1-1-${y}".toList) :=
  BatchReplace_pieces (2 ^ 62) 20 [("${x}".toList, "1".toList)]
    [Piece.token ['x'], Piece.plain ['-'], Piece.token ['x'], Piece.plain ['-'],
      Piece.token ['y']]
    (by decide) (by decide) (by decide)
    (fun n hn => by
      have h11 : BatchReplace_impl.In.TotalLength 20 [("${x}".toList, "1".toList)]
          "${x}-${x}-${y}".toList = some 11 := by decide
      have h : some n = some 11 := hn.symm.trans h11
      cases h
      decide)

/-! ## Trim -/

theorem find_first_not_of_lt (E : string_view) :
    ∀ (s : string_view) (pos : Nat), find_first_not_of E s = some pos → pos < s.length := by
  intro s
  induction s with
  | nil => intro pos h; simp [find_first_not_of] at h
  | cons x rest ih =>
    intro pos h
    unfold find_first_not_of at h
    split at h
    · cases hr : find_first_not_of E rest with
      | none => simp [hr] at h
      | some q =>
        simp only [hr, Option.map_some', Option.some.injEq] at h
        have := ih q hr
        simp only [List.length_cons]
        omega
    · simp only [Option.some.injEq] at h
      simp only [List.length_cons]
      omega

/-- Removing the prefix that `find_first_not_of` points at removes the longest run of excluded
characters at the front. -/
theorem remove_first_eq_dropWhile (E s : string_view) :
    (match find_first_not_of E s with
      | some pos => s.drop pos
      | none => s.drop s.length) = s.dropWhile (fun x => decide (x ∈ E)) := by
  induction s with
  | nil => rfl
  | cons x rest ih =>
    unfold find_first_not_of
    by_cases hx : x ∈ E
    · rw [if_pos hx, List.dropWhile_cons_of_pos (by simpa using hx)]
      cases hr : find_first_not_of E rest with
      | none => simpa [hr] using ih
      | some q => simpa [hr] using ih
    · rw [if_neg hx, List.dropWhile_cons_of_neg (by simpa using hx)]
      rfl

theorem find_first_not_of_none (E s : string_view) (h : find_first_not_of E s = none) :
    ∀ x ∈ s, x ∈ E := by
  have h1 := remove_first_eq_dropWhile E s
  rw [h] at h1
  simp only [List.drop_length] at h1
  have := List.dropWhile_eq_nil_iff.mp h1.symm
  simpa using this

/-- `Trim` removes the longest run of excluded characters at the front and then the longest
such run at the back. -/
theorem Trim_pipe_eq (s E : string_view) :
    Trim.pipe s E
      = (s.dropWhile (fun x => decide (x ∈ E))).rdropWhile (fun x => decide (x ∈ E)) := by
  unfold Trim.pipe
  rw [remove_first_eq_dropWhile]
  simp only []
  generalize hs1 : s.dropWhile (fun x => decide (x ∈ E)) = s1
  unfold find_last_not_of
  cases hr : find_first_not_of E s1.reverse with
  | none =>
    have hall := find_first_not_of_none E _ hr
    have hnil : s1 = [] := by
      by_contra hne
      have hpos : 0 < (s.dropWhile (fun x => decide (x ∈ E))).length := by
        rw [hs1]; exact List.length_pos.mpr hne
      have h1 := List.dropWhile_get_zero_not (fun x => decide (x ∈ E)) s hpos
      apply h1
      have hmem : (s.dropWhile (fun x => decide (x ∈ E))).get ⟨0, hpos⟩ ∈ s1.reverse := by
        rw [List.mem_reverse, ← hs1]
        exact List.get_mem _ _ _
      simpa using hall _ hmem
    subst hnil
    rfl
  | some i =>
    have hi := find_first_not_of_lt E _ _ hr
    rw [List.length_reverse] at hi
    have h1 := remove_first_eq_dropWhile E s1.reverse
    rw [hr] at h1
    simp only [Option.map_some'] at h1 ⊢
    have hlen : s1.length - (s1.length - (s1.length - 1 - i) - 1) = s1.length - i := by omega
    rw [hlen, List.rdropWhile, ← h1, List.drop_reverse, List.reverse_reverse]

theorem Trim_head_not (s E : string_view) (x : Char)
    (h : (Trim.pipe s E).head? = some x) : x ∉ E := by
  rw [Trim_pipe_eq] at h
  obtain ⟨b, hb⟩ := List.rdropWhile_prefix (fun x => decide (x ∈ E))
    (l := s.dropWhile (fun x => decide (x ∈ E)))
  cases hR : List.rdropWhile (fun x => decide (x ∈ E))
      (s.dropWhile (fun x => decide (x ∈ E))) with
  | nil => simp [hR] at h
  | cons y R1 =>
    rw [hR] at h hb
    simp only [List.head?_cons, Option.some.injEq] at h
    subst h
    have hne : s.dropWhile (fun x => decide (x ∈ E)) ≠ [] := by
      rw [← hb]; simp
    have h1 := List.head_dropWhile_not (fun x => decide (x ∈ E)) s hne
    have h2 : (s.dropWhile (fun x => decide (x ∈ E))).head hne = y := by
      simp only [← hb]
      rfl
    rw [h2] at h1
    simpa using h1

theorem Trim_last_not (s E : string_view) (x : Char)
    (h : (Trim.pipe s E).getLast? = some x) : x ∉ E := by
  rw [Trim_pipe_eq] at h
  have hne : List.rdropWhile (fun x => decide (x ∈ E))
      (s.dropWhile (fun x => decide (x ∈ E))) ≠ [] := by
    intro h0
    simp [h0] at h
  have h1 := List.rdropWhile_last_not (fun x => decide (x ∈ E))
    (s.dropWhile (fun x => decide (x ∈ E))) hne
  rw [List.getLast?_eq_getLast _ hne] at h
  simp only [Option.some.injEq] at h
  rw [h] at h1
  simpa using h1

theorem Trim_decomposition (s E : string_view) :
    ∃ a b : string_view, s = a ++ Trim.pipe s E ++ b ∧ (∀ x ∈ a, x ∈ E) ∧ (∀ x ∈ b, x ∈ E) := by
  rw [Trim_pipe_eq]
  generalize hdw : s.dropWhile (fun x => decide (x ∈ E)) = dw
  refine ⟨s.takeWhile (fun x => decide (x ∈ E)),
    (dw.reverse.takeWhile (fun x => decide (x ∈ E))).reverse, ?_, ?_, ?_⟩
  · have h1 : dw = List.rdropWhile (fun x => decide (x ∈ E)) dw
        ++ (dw.reverse.takeWhile (fun x => decide (x ∈ E))).reverse := by
      rw [List.rdropWhile, ← List.reverse_append, List.takeWhile_append_dropWhile,
        List.reverse_reverse]
    rw [List.append_assoc, ← h1, ← hdw, List.takeWhile_append_dropWhile]
  · intro x hx
    simpa using List.mem_takeWhile_imp hx
  · intro x hx
    rw [List.mem_reverse] at hx
    simpa using List.mem_takeWhile_imp hx

/-- A slice that neither starts nor ends with an excluded character is left as it is. -/
theorem Trim_fixed (R E : string_view) (hh : ∀ x, R.head? = some x → x ∉ E)
    (hl : ∀ x, R.getLast? = some x → x ∉ E) : Trim.pipe R E = R := by
  rw [Trim_pipe_eq]
  have h1 : R.dropWhile (fun x => decide (x ∈ E)) = R := by
    cases R with
    | nil => rfl
    | cons y R1 =>
      have := hh y rfl
      rw [List.dropWhile_cons_of_neg (by simpa using this)]
  rw [h1, List.rdropWhile_eq_self_iff]
  intro hne
  have := hl _ (List.getLast?_eq_getLast R hne)
  simpa using this

/-! ## Lazy sequences, Take and DropIf -/

theorem LazyRange_loop_succ {Itor α : Type} (r : LazyRange Itor α) (fuel : Nat) :
    ∀ (k : Nat) (it : Itor) (es : List α),
      r.loop fuel k it = some es → r.loop fuel (k + 1) it = some es := by
  intro k
  induction k with
  | zero =>
    intro it es h
    cases hne : r.ne it with
    | true => simp [LazyRange.loop, hne] at h
    | false => simpa [LazyRange.loop, hne] using h
  | succ k ih =>
    intro it es h
    cases hne : r.ne it with
    | false => simpa [LazyRange.loop, hne] using h
    | true =>
      rw [LazyRange.loop] at h ⊢
      simp only [hne, if_true] at h ⊢
      cases hn : r.next fuel it with
      | none => simp [hn] at h
      | some it1 =>
        simp only [hn] at h ⊢
        cases hl : r.loop fuel k it1 with
        | none => simp [hl] at h
        | some l1 =>
          rw [ih it1 l1 hl]
          simpa [hl] using h

theorem LazyRange_loop_mono {Itor α : Type} (r : LazyRange Itor α) (fuel : Nat)
    (k j : Nat) (hkj : k ≤ j) (it : Itor) (es : List α) (h : r.loop fuel k it = some es) :
    r.loop fuel j it = some es := by
  induction hkj with
  | refl => exact h
  | step _ ih => exact LazyRange_loop_succ r fuel _ it es ih

theorem Split_range_loop (r : Split.InternalRange) (fuel : Nat) :
    ∀ (k : Nat) (it : Split.InternalItor),
      r.range.loop fuel k it
        = rangeFor Split.InternalItor.ne Split.InternalItor.deref Split.InternalItor.next k it := by
  intro k
  induction k with
  | zero => intro it; rfl
  | succ k ih =>
    intro it
    simp only [LazyRange.loop, rangeFor, Split.InternalRange.range]
    split
    · rw [← ih]; rfl
    · rfl

theorem Split_range_toList (r : Split.InternalRange) (fuel : Nat) :
    r.range.toList fuel = r.toList fuel :=
  Split_range_loop r fuel fuel r.begin

theorem Take_loop {Itor α : Type} (r : LazyRange Itor α) (n : Int) (fuel : Nat) :
    ∀ (k : Nat) (it : Itor) (N : Int) (es : List α),
      r.loop fuel k it = some es →
        (Take.pipe r n).loop fuel k { BaseItor := it, N := N } = some (es.take N.toNat) := by
  intro k
  induction k with
  | zero =>
    intro it N es h
    cases hne : r.ne it with
    | true => simp [LazyRange.loop, hne] at h
    | false =>
      simp only [LazyRange.loop, hne] at h
      simp only [Bool.false_eq_true, if_false, Option.some.injEq] at h
      subst h
      simp [LazyRange.loop, Take.pipe, hne]
  | succ k ih =>
    intro it N es h
    cases hne : r.ne it with
    | false =>
      simp only [LazyRange.loop, hne] at h
      simp only [Bool.false_eq_true, if_false, Option.some.injEq] at h
      subst h
      simp [LazyRange.loop, Take.pipe, hne]
    | true =>
      rw [LazyRange.loop] at h
      simp only [hne, if_true] at h
      cases hn : r.next fuel it with
      | none => simp [hn] at h
      | some it1 =>
        simp only [hn] at h
        cases hl : r.loop fuel k it1 with
        | none => simp [hl] at h
        | some l1 =>
          simp only [hl, Option.map_some', Option.some.injEq] at h
          subst h
          by_cases hN : N > 0
          · have e : N.toNat = (N - 1).toNat + 1 := by omega
            rw [LazyRange.loop]
            simp only [Take.pipe, hN, hne, decide_True, Bool.and_self, if_true, hn,
              Option.map_some']
            have := ih it1 (N - 1) l1 hl
            simp only [Take.pipe] at this
            rw [this, e]
            rfl
          · have e : N.toNat = 0 := by omega
            rw [LazyRange.loop]
            simp [Take.pipe, hN, e]

/-- The skipping loop of `DropIf` stops at the first element that does not satisfy the
predicate: what remains to be yielded is the rest without its leading run of dropped
elements. -/
theorem DropIf_skip_spec {Itor α : Type} (r : LazyRange Itor α) (p : α → Bool) (fuel : Nat) :
    ∀ (k : Nat) (it : Itor) (es : List α), r.loop fuel k it = some es →
      ∀ j : Nat, k ≤ j →
        ∃ it1 : Itor, DropIf.skip r p fuel j it = some it1 ∧
          r.loop fuel k it1 = some (es.dropWhile p) := by
  intro k
  induction k with
  | zero =>
    intro it es h j _
    cases hne : r.ne it with
    | true => simp [LazyRange.loop, hne] at h
    | false =>
      simp only [LazyRange.loop, hne] at h
      simp only [Bool.false_eq_true, if_false, Option.some.injEq] at h
      subst h
      refine ⟨it, ?_, by simp [LazyRange.loop, hne]⟩
      cases j <;> simp [DropIf.skip, hne]
  | succ k ih =>
    intro it es h j hj
    cases hne : r.ne it with
    | false =>
      simp only [LazyRange.loop, hne] at h
      simp only [Bool.false_eq_true, if_false, Option.some.injEq] at h
      subst h
      refine ⟨it, ?_, by simp [LazyRange.loop, hne]⟩
      cases j <;> simp [DropIf.skip, hne]
    | true =>
      have h0 := h
      rw [LazyRange.loop] at h
      simp only [hne, if_true] at h
      cases hn : r.next fuel it with
      | none => simp [hn] at h
      | some it1 =>
        simp only [hn] at h
        cases hl : r.loop fuel k it1 with
        | none => simp [hl] at h
        | some l1 =>
          simp only [hl, Option.map_some', Option.some.injEq] at h
          subst h
          obtain ⟨j1, rfl⟩ : ∃ j1, j = j1 + 1 := ⟨j - 1, by omega⟩
          cases hp : p (r.deref it) with
          | true =>
            obtain ⟨it2, h2, h3⟩ := ih it1 l1 hl j1 (by omega)
            refine ⟨it2, ?_, ?_⟩
            · simp [DropIf.skip, hne, hp, hn, h2]
            · rw [List.dropWhile_cons_of_pos hp]
              exact LazyRange_loop_succ r fuel k it2 _ h3
          | false =>
            refine ⟨it, ?_, ?_⟩
            · simp [DropIf.skip, hne, hp]
            · rw [List.dropWhile_cons_of_neg (by simp [hp])]
              exact h0

theorem filter_dropWhile_not {α : Type} (p : α → Bool) (l : List α) :
    (l.dropWhile p).filter (fun e => !p e) = l.filter (fun e => !p e) := by
  induction l with
  | nil => rfl
  | cons x l ih =>
    cases hp : p x with
    | true => rw [List.dropWhile_cons_of_pos hp, ih, List.filter_cons_of_neg (by simp [hp])]
    | false => rw [List.dropWhile_cons_of_neg (by simp [hp])]

theorem DropIf_loop {Itor α : Type} (r : LazyRange Itor α) (p : α → Bool) (fuel : Nat) :
    ∀ (k : Nat), k ≤ fuel → ∀ (it : Itor) (es : List α), r.loop fuel k it = some es →
      (∀ d, es.head? = some d → p d = false) →
      (DropIf.pipe r p).loop fuel k it = some (es.filter (fun e => !p e)) := by
  intro k
  induction k with
  | zero =>
    intro _ it es h _
    cases hne : r.ne it with
    | true => simp [LazyRange.loop, hne] at h
    | false =>
      simp only [LazyRange.loop, hne] at h
      simp only [Bool.false_eq_true, if_false, Option.some.injEq] at h
      subst h
      simp [LazyRange.loop, DropIf.pipe, hne]
  | succ k ih =>
    intro hk it es h hhead
    cases hne : r.ne it with
    | false =>
      simp only [LazyRange.loop, hne] at h
      simp only [Bool.false_eq_true, if_false, Option.some.injEq] at h
      subst h
      simp [LazyRange.loop, DropIf.pipe, hne]
    | true =>
      rw [LazyRange.loop] at h
      simp only [hne, if_true] at h
      cases hn : r.next fuel it with
      | none => simp [hn] at h
      | some it1 =>
        simp only [hn] at h
        cases hl : r.loop fuel k it1 with
        | none => simp [hl] at h
        | some l1 =>
          simp only [hl, Option.map_some', Option.some.injEq] at h
          subst h
          have hp : p (r.deref it) = false := hhead _ rfl
          obtain ⟨it2, h2, h3⟩ := DropIf_skip_spec r p fuel k it1 l1 hl fuel (by omega)
          have hhead2 : ∀ d, (l1.dropWhile p).head? = some d → p d = false := by
            intro d hd
            have hne2 : l1.dropWhile p ≠ [] := by
              intro h0; simp [h0] at hd
            have := List.head_dropWhile_not p l1 hne2
            rw [List.head?_eq_head hne2] at hd
            simp only [Option.some.injEq] at hd
            rw [hd] at this
            exact this
          have h4 := ih (by omega) it2 _ h3 hhead2
          rw [filter_dropWhile_not] at h4
          rw [LazyRange.loop]
          simp only [DropIf.pipe, hne, if_true, hn, h2]
          simp only [DropIf.pipe] at h4
          rw [h4, List.filter_cons_of_pos (by simp [hp])]
          rfl

/-! ## Split_ and the joined slices -/

theorem Split_eager_loop_eq (s : string_view) (d : Char) :
    ∀ (fuel : Nat) (Result : List string_view) (b : Nat), b ≤ s.length →
      Split_.By.loop s d fuel Result b
        = (rangeFor Split.InternalItor.ne Split.InternalItor.deref Split.InternalItor.next fuel
            { BaseRange := s.drop b, Delimiter := d }).map (fun l => Result ++ l) := by
  intro fuel
  induction fuel with
  | zero =>
    intro Result b hb
    by_cases h : b = s.length
    · simp [Split_.By.loop, rangeFor, Split.InternalItor.ne, h]
    · have hne : s.drop b ≠ [] := by
        intro h0
        have := congrArg List.length h0
        simp only [List.length_drop, List.length_nil] at this
        omega
      simp [Split_.By.loop, rangeFor, Split.InternalItor.ne, h, hne]
  | succ fuel ih =>
    intro Result b hb
    by_cases h : b = s.length
    · simp [Split_.By.loop, rangeFor, Split.InternalItor.ne, h]
    · have hne : s.drop b ≠ [] := by
        intro h0
        have := congrArg List.length h0
        simp only [List.length_drop, List.length_nil] at this
        omega
      have hfl := find_le d (s.drop b)
      rw [List.length_drop] at hfl
      have hderef : view s b (b + find d (s.drop b))
          = Split.InternalItor.deref { BaseRange := s.drop b, Delimiter := d } := by
        simp [Split.InternalItor.deref, view]
      rw [Split_.By.loop, if_pos h]
      simp only [view_to_end]
      rw [rangeFor]
      have hne2 : Split.InternalItor.ne { BaseRange := s.drop b, Delimiter := d } = true := by
        simp [Split.InternalItor.ne, hne]
      simp only [hne2, if_true, hderef]
      by_cases hend : b + find d (s.drop b) = s.length
      · have hf : find d (s.drop b) = (s.drop b).length := by
          rw [List.length_drop]; omega
        have hnext : Split.InternalItor.next { BaseRange := s.drop b, Delimiter := d }
            = { BaseRange := s.drop s.length, Delimiter := d } := by
          simp [Split.InternalItor.next, hf]
        rw [if_pos hend, ih _ _ (Nat.le_refl _), hnext]
        simp [Option.map_map, Function.comp_def]
      · have hf : find d (s.drop b) ≠ (s.drop b).length := by
          rw [List.length_drop]; omega
        have hnext : Split.InternalItor.next { BaseRange := s.drop b, Delimiter := d }
            = { BaseRange := s.drop (b + find d (s.drop b) + 1), Delimiter := d } := by
          simp only [Split.InternalItor.next, if_neg hf, view_to_end, List.drop_drop,
            Nat.add_assoc]
        rw [if_neg hend, ih _ _ (by omega), hnext]
        simp [Option.map_map, Function.comp_def]

theorem Split_rangeFor_terminates (d : Char) :
    ∀ (fuel : Nat) (s : string_view), s.length ≤ fuel →
      ∃ l : List string_view,
        rangeFor Split.InternalItor.ne Split.InternalItor.deref Split.InternalItor.next fuel
          { BaseRange := s, Delimiter := d } = some l := by
  intro fuel s hf
  by_cases hs : s = []
  · subst hs
    exact ⟨[], Split_rangeFor_nil d fuel⟩
  · obtain ⟨l, hl, _⟩ := Split_size_of_nonempty d fuel s hs hf
    exact ⟨l, hl⟩

theorem intercalate_cons_cons (d : Char) (a b : string_view) (l : List string_view) :
    List.intercalate [d] (a :: b :: l) = a ++ d :: List.intercalate [d] (b :: l) := by
  simp [List.intercalate, List.intersperse]

theorem Split_toList_join (d : Char) :
    ∀ (fuel : Nat) (s : string_view), s ≠ [] → s.length ≤ fuel →
      ∃ l : List string_view, (Split.By s d).toList fuel = some l ∧ l ≠ [] ∧
        List.intercalate [d] l = if ends_with s d then s.dropLast else s := by
  intro fuel
  induction fuel with
  | zero =>
    intro s hs hf
    exact absurd (List.eq_nil_of_length_eq_zero (by omega)) hs
  | succ fuel ih =>
    intro s hs hf
    have hne : Split.InternalItor.ne { BaseRange := s, Delimiter := d } = true := by
      cases s with
      | nil => exact absurd rfl hs
      | cons x r => rfl
    simp only [Split.By, Split.InternalRange.toList, Split.InternalRange.begin, rangeFor, hne,
      if_true]
    rcases find_decomp d s with ⟨hmem, hfind⟩ | ⟨a, r, ha, rfl, hfind⟩
    · rw [Split_next_of_absent d s hmem, Split_rangeFor_nil]
      refine ⟨_, rfl, by simp, ?_⟩
      have hderef : Split.InternalItor.deref { BaseRange := s, Delimiter := d } = s := by
        simp [Split.InternalItor.deref, hfind, view]
      simp [ends_with_of_not_mem d s hmem, hderef, List.intercalate]
    · rw [Split_next_of_present d a r ha]
      have hderef : Split.InternalItor.deref { BaseRange := a ++ d :: r, Delimiter := d }
          = a := by
        simp [Split.InternalItor.deref, hfind, view]
      simp only [ends_with_append_cons, hderef]
      by_cases hr : r = []
      · subst hr
        rw [Split_rangeFor_nil]
        refine ⟨_, rfl, by simp, ?_⟩
        simp [List.intercalate, List.dropLast_concat]
      · have hlen : r.length ≤ fuel := by
          simp only [List.length_append, List.length_cons] at hf
          omega
        obtain ⟨l, hl1, hl2, hl3⟩ := ih r hr hlen
        simp only [Split.By, Split.InternalRange.toList, Split.InternalRange.begin] at hl1
        rw [hl1]
        refine ⟨_, rfl, by simp, ?_⟩
        obtain ⟨b, l1, rfl⟩ := List.exists_cons_of_ne_nil hl2
        simp only [Option.map_some', if_neg hr]
        rw [intercalate_cons_cons, hl3]
        split
        · rw [List.dropLast_append_of_ne_nil _ (by simp), List.dropLast_cons_of_ne_nil hr]
        · rfl

/-! ## BatchReplace: the estimate on the empty source, unterminated tokens -/

theorem BatchReplace_impl_In_TotalLength_fold_empty_source (fuel : Nat) :
    ∀ (T : BatchReplace_impl) (init : Nat), init < SIZE_MOD →
      T.foldlM
        (fun (TotalLength : Nat) (SubstitutionPair : BatchReplaceSubstitutionPair) =>
          (Count.In fuel SubstitutionPair.1 []).map fun n =>
            (((TotalLength : Int)
              + ((SubstitutionPair.2.length : Int) - (SubstitutionPair.1.length : Int)) * n)
                % (SIZE_MOD : Int)).toNat)
        init
      = some ((((init : Int)
          + (T.map fun E => (E.1.length : Int) - (E.2.length : Int)).sum)
            % (SIZE_MOD : Int)).toNat) := by
  have hM : (0 : Int) < (SIZE_MOD : Int) := by decide
  intro T
  induction T with
  | nil =>
    intro init hinit
    simp only [List.foldlM, List.map_nil, List.sum_nil, Int.add_zero]
    rw [Int.emod_eq_of_lt (by omega) (by omega)]
    rfl
  | cons E T ih =>
    intro init hinit
    rw [List.foldlM_cons, Count_In_nil]
    simp only [Option.map_some', Option.bind_eq_bind, Option.some_bind, List.map_cons,
      List.sum_cons]
    have hnn : (0 : Int) ≤ ((init : Int) + ((E.2.length : Int) - (E.1.length : Int)) * (-1))
        % (SIZE_MOD : Int) := Int.emod_nonneg _ (by omega)
    have hlt : ((init : Int) + ((E.2.length : Int) - (E.1.length : Int)) * (-1))
        % (SIZE_MOD : Int) < (SIZE_MOD : Int) := Int.emod_lt_of_pos _ hM
    have hlt2 : (((init : Int) + ((E.2.length : Int) - (E.1.length : Int)) * (-1))
        % (SIZE_MOD : Int)).toNat < SIZE_MOD := by omega
    rw [ih _ hlt2]
    congr 2
    rw [Int.toNat_of_nonneg hnn, Int.emod_add_emod]
    congr 1
    omega

/-- The size estimate of `BatchReplace_impl::In` for the empty source: every entry adds
`(replacement length - token length) * (-1)`, so the estimate is the sum of
`token length - replacement length` over the table, modulo `2 ^ 64`. -/
theorem BatchReplace_impl_In_TotalLength_empty_source (fuel : Nat) (T : BatchReplace_impl) :
    BatchReplace_impl.In.TotalLength fuel T []
      = some (((T.map fun E => (E.1.length : Int) - (E.2.length : Int)).sum
          % (SIZE_MOD : Int)).toNat) := by
  have := BatchReplace_impl_In_TotalLength_fold_empty_source fuel T 0 (by decide)
  simpa [BatchReplace_impl.In.TotalLength] using this

theorem BatchReplace_impl_In_find_append_marker (x m : string_view) :
    BatchReplace_impl.In.find '$' (x ++ '$' :: m) = BatchReplace_impl.In.find '$' x ++ '$' :: m := by
  unfold BatchReplace_impl.In.find
  rcases find_decomp '$' x with ⟨hmem, hf⟩ | ⟨a, r, ha, rfl, hf⟩
  · rw [find_append_of_not_mem '$' x m hmem, hf]
    simp
  · have h1 : find '$' (a ++ '$' :: r ++ '$' :: m) = a.length := by
      have := find_append_of_not_mem '$' a (r ++ '$' :: m) ha
      simpa using this
    rw [h1, hf]
    simp

theorem BatchReplace_impl_In_find_close_append (y m : string_view) (hm : '}' ∉ m) :
    BatchReplace_impl.In.find '}' (y ++ m)
      = if '}' ∈ y then BatchReplace_impl.In.find '}' y ++ m else [] := by
  unfold BatchReplace_impl.In.find
  rcases find_decomp '}' y with ⟨hmem, hf⟩ | ⟨a, r, ha, rfl, hf⟩
  · have hall : '}' ∉ y ++ m := by
      intro h
      rcases List.mem_append.mp h with h | h
      · exact hmem h
      · exact hm h
    rw [if_neg hmem, find_of_not_mem '}' _ hall]
    simp
  · have h1 : find '}' (a ++ '}' :: r ++ m) = a.length := by
      have := find_append_of_not_mem '}' a (r ++ m) ha
      simpa using this
    rw [if_pos (by simp), h1, hf]
    simp

theorem BatchReplace_impl_In_find_close_ne_nil (y : string_view) (h : '}' ∈ y) :
    BatchReplace_impl.In.find '}' y ≠ [] := by
  unfold BatchReplace_impl.In.find
  rcases find_decomp '}' y with ⟨hmem, _⟩ | ⟨a, r, ha, rfl, hf⟩
  · exact absurd h hmem
  · rw [hf]
    simp

theorem BatchReplace_impl_In_skip_append_marker (m : string_view) :
    ∀ (fuel : Nat) (x : string_view),
      BatchReplace_impl.In.skip fuel (x ++ '$' :: '{' :: m)
        = (BatchReplace_impl.In.skip fuel x).map (fun ts => ts ++ '$' :: '{' :: m) := by
  intro fuel
  induction fuel with
  | zero =>
    intro x
    cases x with
    | nil => simp [BatchReplace_impl.In.skip]
    | cons c x1 =>
      cases x1 with
      | nil => simp [BatchReplace_impl.In.skip]
      | cons c2 x2 =>
        simp only [BatchReplace_impl.In.skip, List.cons_append, List.take_succ_cons,
          List.take_zero]
        split <;> simp_all
  | succ fuel ih =>
    intro x
    cases x with
    | nil => simp [BatchReplace_impl.In.skip]
    | cons c x1 =>
      have hrec : BatchReplace_impl.In.skip fuel
            (BatchReplace_impl.In.find '$' (x1 ++ '$' :: '{' :: m))
          = (BatchReplace_impl.In.skip fuel (BatchReplace_impl.In.find '$' x1)).map
              (fun ts => ts ++ '$' :: '{' :: m) := by
        rw [BatchReplace_impl_In_find_append_marker, ih]
      cases x1 with
      | nil =>
        simp only [List.nil_append] at hrec
        simp [BatchReplace_impl.In.skip, hrec]
      | cons c2 x2 =>
        simp only [BatchReplace_impl.In.skip, List.cons_append, List.take_succ_cons,
          List.take_zero, List.drop_succ_cons, List.drop_zero]
        simp only [List.cons_append] at hrec
        split
        · next h1 =>
          rw [if_pos (by simpa using h1)]
          exact hrec
        · next h1 =>
          rw [if_neg (by simpa using h1)]
          rfl

theorem BatchReplace_impl_In_skip_result (fuel : Nat) :
    ∀ (x ts : string_view), BatchReplace_impl.In.skip fuel x = some ts →
      ts <:+ x ∧ (ts = [] ∨ ts.take 2 = ['$', '{']) := by
  induction fuel with
  | zero =>
    intro x ts h
    unfold BatchReplace_impl.In.skip at h
    split at h
    · simp at h
    · next hc =>
      simp only [Option.some.injEq] at h
      subst h
      refine ⟨List.suffix_refl _, ?_⟩
      by_cases hx : x = []
      · exact Or.inl hx
      · right
        by_contra h2
        exact hc ⟨hx, h2⟩
  | succ fuel ih =>
    intro x ts h
    unfold BatchReplace_impl.In.skip at h
    split at h
    · obtain ⟨h1, h2⟩ := ih _ ts h
      exact ⟨h1.trans ((BatchReplace_impl_In_find_suffix _ _).trans (List.drop_suffix _ _)), h2⟩
    · next hc =>
      simp only [Option.some.injEq] at h
      subst h
      refine ⟨List.suffix_refl _, ?_⟩
      by_cases hx : x = []
      · exact Or.inl hx
      · right
        by_contra h2
        exact hc ⟨hx, h2⟩

theorem BatchReplace_impl_In_span_append_both (x y m : string_view) (h : y <:+ x) :
    BatchReplace_impl.In.span (x ++ m) (y ++ m) = BatchReplace_impl.In.span x y := by
  unfold BatchReplace_impl.In.span
  have hl := h.length_le
  simp only [List.length_append]
  have e : x.length + m.length - (y.length + m.length) = x.length - y.length := by omega
  rw [e, List.take_append_of_le_length (by omega)]

/-- The rewriting loop on a source that ends with an unterminated `${` followed by `b`: what
the loop returns for the part before, followed by the fragment. -/
theorem BatchReplace_impl_In_loop_unterminated (T : BatchReplace_impl) (b : string_view) (hb : '}' ∉ b) :
    ∀ (fuel : Nat) (R a : string_view), a.length < fuel →
      BatchReplace_impl.In.loop T fuel R (a ++ '$' :: '{' :: b)
        = (BatchReplace_impl.In.loop T fuel R a).map (fun r => r ++ '$' :: '{' :: b) := by
  intro fuel
  induction fuel with
  | zero => intro R a h; omega
  | succ fuel ih =>
    intro R a hlen
    by_cases ha : a = []
    · subst ha
      have hf : BatchReplace_impl.In.find '$' ('$' :: '{' :: b) = '$' :: '{' :: b := by
        simp [BatchReplace_impl.In.find, find]
      have hfe : BatchReplace_impl.In.find '}' b = [] := by
        simp [BatchReplace_impl.In.find, find_of_not_mem '}' b hb]
      simp only [List.nil_append]
      rw [BatchReplace_impl.In.loop, if_pos (by simp), hf, BatchReplace_impl_In_skip_at_marker]
      simp [BatchReplace_impl.In.loop, BatchReplace_impl.In.span, hfe]
    · have hne : a ++ '$' :: '{' :: b ≠ [] := by simp
      rw [BatchReplace_impl.In.loop, if_pos hne, BatchReplace_impl.In.loop, if_pos ha,
        BatchReplace_impl_In_find_append_marker, BatchReplace_impl_In_skip_append_marker]
      cases hs : BatchReplace_impl.In.skip fuel (BatchReplace_impl.In.find '$' a) with
      | none => rfl
      | some ts =>
        obtain ⟨hsuf0, hts⟩ := BatchReplace_impl_In_skip_result fuel _ ts hs
        have hsuf : ts <:+ a := hsuf0.trans (BatchReplace_impl_In_find_suffix _ _)
        simp only [Option.map_some', BatchReplace_impl_In_span_append_both a ts _ hsuf]
        by_cases hts0 : ts = []
        · subst hts0
          have hfe : BatchReplace_impl.In.find '}' b = [] := by
            simp [BatchReplace_impl.In.find, find_of_not_mem '}' b hb]
          simp [hfe]
        · rcases hts with h | h
          · exact absurd h hts0
          · obtain ⟨y, rfl⟩ : ∃ y, ts = '$' :: '{' :: y := by
              match ts, h with
              | c1 :: c2 :: y, h =>
                simp only [List.take_succ_cons, List.take_zero, List.cons.injEq, and_true] at h
                exact ⟨y, by rw [h.1, h.2]⟩
            have hm : '}' ∉ '$' :: '{' :: b := by
              intro hmem
              simp only [List.mem_cons] at hmem
              rcases hmem with h1 | h1 | h1
              · exact absurd h1 (by decide)
              · exact absurd h1 (by decide)
              · exact hb h1
            simp only [List.cons_append, List.drop_succ_cons, List.drop_zero, if_neg hts0]
            rw [if_neg (by simp), BatchReplace_impl_In_find_close_append y _ hm]
            by_cases hy : '}' ∈ y
            · have hte := BatchReplace_impl_In_find_close_ne_nil y hy
              rw [if_pos hy, if_neg hte, if_neg (by simp [hte])]
              have hdrop : (BatchReplace_impl.In.find '}' y ++ '$' :: '{' :: b).drop 1
                  = (BatchReplace_impl.In.find '}' y).drop 1 ++ '$' :: '{' :: b := by
                cases hfy : BatchReplace_impl.In.find '}' y with
                | nil => exact absurd hfy hte
                | cons c l => rfl
              have hsuf2 : (BatchReplace_impl.In.find '}' y).drop 1 <:+ '$' :: '{' :: y :=
                ((List.drop_suffix _ _).trans (BatchReplace_impl_In_find_suffix _ _)).trans
                  (List.drop_suffix 2 ('$' :: '{' :: y))
              have hspan := BatchReplace_impl_In_span_append_both ('$' :: '{' :: y)
                ((BatchReplace_impl.In.find '}' y).drop 1) ('$' :: '{' :: b) hsuf2
              simp only [List.cons_append] at hspan
              have hlen2 : ((BatchReplace_impl.In.find '}' y).drop 1).length < fuel := by
                have h1 := ((List.drop_suffix 1 (BatchReplace_impl.In.find '}' y)).trans
                  (BatchReplace_impl_In_find_suffix _ _)).length_le
                have h2 := hsuf.length_le
                simp only [List.length_cons] at h2
                omega
              simp only [hdrop, hspan]
              cases T.find? (fun E => BatchReplace_impl.In.span ('$' :: '{' :: y)
                  ((BatchReplace_impl.In.find '}' y).drop 1) == E.1) with
              | none => exact ih _ _ hlen2
              | some E => exact ih _ _ hlen2
            · have hte : BatchReplace_impl.In.find '}' y = [] := by
                simp [BatchReplace_impl.In.find, find_of_not_mem '}' y hy]
              rw [if_neg hy, hte]
              simp

/-- The rewriting loop of `BatchReplace_impl::In` comes to its end. -/
theorem BatchReplace_impl_In_loop_terminates (T : BatchReplace_impl) :
    ∀ (fuel : Nat) (R sb : string_view), sb.length < fuel →
      ∃ r : string_view, BatchReplace_impl.In.loop T fuel R sb = some r := by
  intro fuel
  induction fuel with
  | zero => intro R sb h; omega
  | succ fuel ih =>
    intro R sb h
    unfold BatchReplace_impl.In.loop
    by_cases hsb : sb = []
    · exact ⟨R, by simp [hsb]⟩
    · rw [if_pos hsb]
      have hfs := BatchReplace_impl_In_find_suffix '$' sb
      obtain ⟨ts, hts, hsuf⟩ := BatchReplace_impl_In_skip_terminates fuel
        (BatchReplace_impl.In.find '$' sb) (by have := hfs.length_le; omega)
      have hsuf2 : ts <:+ sb := hsuf.trans hfs
      rw [hts]
      simp only []
      by_cases hts0 : ts = []
      · exact ⟨_, by rw [if_pos hts0]⟩
      · rw [if_neg hts0]
        by_cases hte : BatchReplace_impl.In.find '}' (ts.drop 2) = []
        · exact ⟨_, by rw [if_pos hte]⟩
        · rw [if_neg hte]
          have hlen : ((BatchReplace_impl.In.find '}' (ts.drop 2)).drop 1).length < fuel := by
            have h1 := ((BatchReplace_impl_In_find_suffix '}' (ts.drop 2)).trans
              (List.drop_suffix 2 ts)).length_le
            have h2 := hsuf2.length_le
            have h3 : 0 < (BatchReplace_impl.In.find '}' (ts.drop 2)).length :=
              List.length_pos.mpr hte
            rw [List.length_drop]
            omega
          cases T.find? (fun E => BatchReplace_impl.In.span ts
              ((BatchReplace_impl.In.find '}' (ts.drop 2)).drop 1) == E.1) with
          | none => exact ih _ _ hlen
          | some E => exact ih _ _ hlen

/-- Where the first loop of `In` returns and `reserve` does not throw, for the source and for
its part `a` before the fragment, an unterminated trailing token is passed through verbatim:
for a table `T` whose tokens are all non-empty and a text `b` without closing brace,
`In(a ++ "${" ++ b)` is `In(a) ++ "${" ++ b`. -/
theorem BatchReplace_unterminated_tail (max_size fuel : Nat) (T : BatchReplace_impl)
    (a b : string_view) (hb : '}' ∉ b) (htok : ∀ E ∈ T, E.1 ≠ [])
    (hfuel : (a ++ '$' :: '{' :: b).length < fuel)
    (hsize_a : ∀ n : Nat, BatchReplace_impl.In.TotalLength fuel T a = some n → n ≤ max_size)
    (hsize : ∀ n : Nat,
      BatchReplace_impl.In.TotalLength fuel T (a ++ '$' :: '{' :: b) = some n → n ≤ max_size) :
    ∃ r : string_view, BatchReplace_impl.In max_size fuel T a = some (Except.ok r) ∧
      BatchReplace_impl.In max_size fuel T (a ++ '$' :: '{' :: b)
        = some (Except.ok (r ++ '$' :: '{' :: b)) := by
  have hla : a.length < fuel := by
    simp only [List.length_append, List.length_cons] at hfuel
    omega
  obtain ⟨na, hna⟩ := BatchReplace_impl_In_TotalLength_terminates fuel T a htok (Nat.le_of_lt hla)
  obtain ⟨n, hn⟩ := BatchReplace_impl_In_TotalLength_terminates fuel T _ htok (Nat.le_of_lt hfuel)
  obtain ⟨r, hr⟩ := BatchReplace_impl_In_loop_terminates T fuel [] a hla
  have hl := BatchReplace_impl_In_loop_unterminated T b hb fuel [] a hla
  rw [hr] at hl
  refine ⟨r, ?_, ?_⟩
  · unfold BatchReplace_impl.In
    rw [hna]
    simp only [Nat.not_lt.mpr (hsize_a na hna), if_false, hr]
    rfl
  · unfold BatchReplace_impl.In
    rw [hn]
    simp only [Nat.not_lt.mpr (hsize n hn), if_false, hl]
    rfl

/-! ## The claims -/

/-- C1 (the code at the failing inputs). With the table `{("", "x")}` and the source `a` (one
plain piece) `In` does not return, whatever the fuel: `Count("").In("a")` never leaves its loop.
With the table `{("${x}", "12345")}` and the empty source the size estimate is `2 ^ 64 - 1`,
and `Result.reserve` throws `std::length_error` unless `max_size()` is that large. -/
theorem BatchReplace_In_estimate_failures :
    (∀ max_size fuel : Nat, BatchReplace_impl.In max_size fuel [([], ['x'])] ['a'] = none) ∧
    (∀ fuel : Nat,
      BatchReplace_impl.In.TotalLength fuel [("${x}".toList, "12345".toList)] []
        = some (2 ^ 64 - 1)) ∧
    (∀ max_size fuel : Nat,
      BatchReplace_impl.In max_size fuel [("${x}".toList, "12345".toList)] []
        = if max_size < 2 ^ 64 - 1 then some (Except.error exception.length_error)
          else some (Except.ok [])) := by
  have hT : ∀ fuel : Nat,
      BatchReplace_impl.In.TotalLength fuel [("${x}".toList, "12345".toList)] []
        = some (2 ^ 64 - 1) := by
    intro fuel
    simp only [BatchReplace_impl.In.TotalLength, List.foldlM, Count_In_nil]
    decide
  refine ⟨?_, hT, ?_⟩
  · intro max_size fuel
    have hc : Count.In fuel [] ['a'] = none := Count_In_loop_empty_pattern 'a' [] fuel (-1)
    have hT1 : BatchReplace_impl.In.TotalLength fuel [([], ['x'])] ['a'] = none := by
      simp [BatchReplace_impl.In.TotalLength, List.foldlM, hc]
    simp [BatchReplace_impl.In, hT1]
  · intro max_size fuel
    have hloop : BatchReplace_impl.In.loop [("${x}".toList, "12345".toList)] fuel [] []
        = some [] := by
      cases fuel <;> simp [BatchReplace_impl.In.loop]
    unfold BatchReplace_impl.In
    rw [hT fuel, hloop]
    rfl

/-- C2. With the empty substitution table `BatchReplace_impl::In` returns the source unchanged,
for every source (lone `$` characters, unknown tokens and unterminated `${` included) that a
`std::string` can hold. -/
theorem BatchReplace_empty_table (max_size fuel : Nat) (s : string_view)
    (hsize : s.length ≤ max_size) (hfuel : s.length < fuel) :
    BatchReplace_impl.In max_size fuel [] s = some (Except.ok s) := by
  have hT : BatchReplace_impl.In.TotalLength fuel [] s = some (s.length % SIZE_MOD) := rfl
  have hle : ¬ max_size < s.length % SIZE_MOD := by
    have := Nat.mod_le s.length SIZE_MOD
    omega
  unfold BatchReplace_impl.In
  rw [hT]
  simp only [hle, if_false]
  rw [BatchReplace_impl_In_loop_nil fuel [] s hfuel]
  rfl

/-- C2, at a source with a lone `$`, an unknown token and an unterminated `${`. -/
theorem BatchReplace_empty_table_witness :
    BatchReplace_impl.In (2 ^ 62) 16 [] "a$b ${y} $ $\x7bc$".toList
      = some (Except.ok "a$b ${y} $ $\x7bc$".toList) :=
  BatchReplace_empty_table (2 ^ 62) 16 "a$b ${y} $ $\x7bc$".toList (by decide) (by decide)

/-- C3 (the code at the failing input). `Count("ab").In("ab")` returns 0, and likewise
`Count("ab").In("abab")` returns 1, while the numbers of non-overlapping occurrences are 1
and 2: the first round of the loop steps over the first `Pattern.length()` characters of
`Source` without comparing them. -/
theorem Count_In_skips_leading_match :
    Count.In 2 "ab".toList "ab".toList = some 0 ∧
    nonOverlappingOccurrences "ab".toList "ab".toList = 1 ∧
    Count.In 4 "ab".toList "abab".toList = some 1 ∧
    nonOverlappingOccurrences "ab".toList "abab".toList = 2 := by
  refine ⟨by decide, by decide, by decide, by decide⟩

/-- C4 (the code at the failing input). On the empty source the loop of `Count::In` is not
entered and the initial value `-1` is returned, for every pattern and any amount of fuel. -/
theorem Count_In_empty_source (fuel : Nat) (p : string_view) :
    Count.In fuel p [] = some (-1) := by
  cases fuel <;> simp [Count.In, Count.In.loop]

/-- C5. `After(L)` applied to `s`: when `L` occurs in `s` the result is the rest of `s` after the
leftmost occurrence of `L` (`s = p ++ L ++ result`, and no occurrence of `L` starts before
offset `|p|`); when `L` does not occur in `s` the result is the empty slice. -/
theorem After_after_first_occurrence (s L : string_view) :
    (L <:+: s →
      ∃ p : string_view, s = p ++ L ++ After.pipe s L ∧
        ∀ q r : string_view, s = q ++ L ++ r → p.length ≤ q.length) ∧
    (¬ L <:+: s → After.pipe s L = []) := by
  constructor
  · intro h
    obtain ⟨t, ht⟩ := Search_In_found L s h
    have hle := Search_In_le L s
    have hs : s = s.take (Search.In L s) ++ L ++ t := by
      rw [List.append_assoc, ht, List.take_append_drop]
    have hlen : (s.take (Search.In L s)).length = Search.In L s := by
      rw [List.length_take, Nat.min_eq_left hle]
    have hfirst : ∀ q r : string_view, s = q ++ L ++ r →
        (s.take (Search.In L s)).length ≤ q.length := by
      intro q r hq
      rw [hlen]
      exact Search_In_first L s q r hq
    refine ⟨s.take (Search.In L s), ?_, hfirst⟩
    have hA : After.pipe s L = t := by
      have := After_pipe_of_first L (s.take (Search.In L s)) t (by rw [← hs]; exact hfirst)
      rw [← hs] at this
      exact this
    rw [hA]
    exact hs
  · exact After_pipe_of_absent L s

/-- C5, at the source `AABBCC` with the bound `BB`: the result is `CC`. -/
theorem After_after_first_occurrence_witness :
    After.pipe "AABBCC".toList "BB".toList = "CC".toList ∧
    (∃ p : string_view, "AABBCC".toList = p ++ "BB".toList ++ After.pipe "AABBCC".toList "BB".toList ∧
        ∀ q r : string_view, "AABBCC".toList = q ++ "BB".toList ++ r → p.length ≤ q.length) ∧
    After.pipe "AACC".toList "BB".toList = [] :=
  ⟨by decide,
   (After_after_first_occurrence "AABBCC".toList "BB".toList).1 ⟨"AA".toList, "CC".toList, rfl⟩,
   (After_after_first_occurrence "AACC".toList "BB".toList).2 (by decide)⟩

/-- C6. `Between(L, R)` applied to `s`: (1) when `L` does not occur in `s` the result is empty;
for the text `t` after the first occurrence of `L` (`s = p ++ L ++ t`, no occurrence of `L`
starting before offset `|p|`), (2) when `R` does not occur in `t` the result is all of `t`,
which is also what `After(L)` gives, and (3) when `R` occurs in `t` the result is the part
`m` of `t` before the first occurrence of `R` in `t`. -/
theorem Between_three_cases (s L R : string_view) :
    (¬ L <:+: s → Between.pipe s L R = []) ∧
    (∀ p t : string_view, s = p ++ L ++ t →
      (∀ q r : string_view, s = q ++ L ++ r → p.length ≤ q.length) →
        (¬ R <:+: t → Between.pipe s L R = t ∧ Between.pipe s L R = After.pipe s L) ∧
        (R <:+: t →
          ∃ m r : string_view, t = m ++ R ++ r ∧
            (∀ m1 r1 : string_view, t = m1 ++ R ++ r1 → m.length ≤ m1.length) ∧
            Between.pipe s L R = m)) := by
  refine ⟨Between_pipe_of_absent L R s, ?_⟩
  intro p t hs hfirst
  subst hs
  have hB := Between_pipe_of_first L R p t hfirst
  have hA := After_pipe_of_first L p t hfirst
  constructor
  · intro hR
    rw [hB, hA, Search_In_absent R t hR]
    simp
  · intro hR
    obtain ⟨r, hr⟩ := Search_In_found R t hR
    have hle := Search_In_le R t
    refine ⟨t.take (Search.In R t), r, ?_, ?_, hB⟩
    · rw [List.append_assoc, hr, List.take_append_drop]
    · intro m1 r1 h1
      rw [List.length_take, Nat.min_eq_left hle]
      exact Search_In_first R t m1 r1 h1

/-- C6, at the bounds `[` and `]`: on `x[hello]y` and on `x[hello` the result is `hello`, on
`xhello` it is empty. -/
theorem Between_three_cases_witness :
    Between.pipe "xhello".toList "[".toList "]".toList = [] ∧
    (Between.pipe "x[hello".toList "[".toList "]".toList = "hello".toList ∧
      Between.pipe "x[hello".toList "[".toList "]".toList
        = After.pipe "x[hello".toList "[".toList) ∧
    (∃ m r : string_view, "hello]y".toList = m ++ "]".toList ++ r ∧
      (∀ m1 r1 : string_view, "hello]y".toList = m1 ++ "]".toList ++ r1 → m.length ≤ m1.length) ∧
      Between.pipe "x[hello]y".toList "[".toList "]".toList = m) ∧
    Between.pipe "x[hello]y".toList "[".toList "]".toList = "hello".toList :=
  ⟨(Between_three_cases "xhello".toList "[".toList "]".toList).1 (by decide),
   ((Between_three_cases "x[hello".toList "[".toList "]".toList).2 "x".toList "hello".toList rfl
      (fun q r h => Search_In_first "[".toList "x[hello".toList q r h)).1 (by decide),
   ((Between_three_cases "x[hello]y".toList "[".toList "]".toList).2 "x".toList "hello]y".toList
      rfl (fun q r h => Search_In_first "[".toList "x[hello]y".toList q r h)).2 (by decide),
   by decide⟩

/-- C7 (counterexample). On `a,,b,` the lazy `Split` does not yield the four slices
`a`, empty, `b`, empty, whatever the fuel, and its `size()` is not 4. -/
theorem Split_trailing_delimiter_not_four :
    (¬ ∃ fuel : Nat, (Split.By "a,,b,".toList ',').toList fuel
        = some ["a".toList, [], "b".toList, []]) ∧
    (Split.By "a,,b,".toList ',').size ≠ 4 := by
  constructor
  · rintro ⟨fuel, h⟩
    have h3 : (Split.By "a,,b,".toList ',').toList 3 = some ["a".toList, [], "b".toList] := by
      decide
    have := rangeFor_unique _ _ _ _ _ _ _ _ h h3
    exact absurd this (by decide)
  · decide

/-- C7 (amended). On `a,,b,` the lazy `Split` yields exactly the three slices `a`, empty, `b`
and its `size()` is 3; on `a,b` it yields exactly `a`, `b` and its `size()` is 2. -/
theorem Split_examples :
    (∀ k : Nat, (Split.By "a,,b,".toList ',').toList (3 + k)
        = some ["a".toList, [], "b".toList]) ∧
    (Split.By "a,,b,".toList ',').size = 3 ∧
    (∀ k : Nat, (Split.By "a,b".toList ',').toList (2 + k) = some ["a".toList, "b".toList]) ∧
    (Split.By "a,b".toList ',').size = 2 := by
  refine ⟨fun k => rangeFor_mono _ _ _ 3 k _ _ (by decide), by decide,
    fun k => rangeFor_mono _ _ _ 2 k _ _ (by decide), by decide⟩

/-- C8 (the code at the failing input). For the empty source `size()` is 1 while the iteration
yields no slice, for every delimiter. -/
theorem Split_size_empty_source (d : Char) :
    (Split.By [] d).size = 1 ∧ ∀ fuel : Nat, (Split.By [] d).toList fuel = some [] := by
  constructor
  · simp [Split.By, Split.InternalRange.size, ends_with, count]
  · intro fuel
    cases fuel <;>
      simp [Split.By, Split.InternalRange.toList, Split.InternalRange.begin, rangeFor,
        Split.InternalItor.ne]

/-- C9. For texts `x_1 .. x_n` (`n ≥ 0`) without `<` and `>`, the iteration of
`SplitBetween{"<", ">"}` over `<x_1><x_2>...<x_n>` comes to its end, within `n` advances, and
yields exactly `x_1, ..., x_n` in order. -/
theorem SplitBetween_bracketed (xs : List string_view) (fuel : Nat)
    (hxs : ∀ x ∈ xs, '<' ∉ x ∧ '>' ∉ x) (hfuel : xs.length ≤ fuel) :
    (SplitBetween.pipe ((xs.map fun x => ['<'] ++ x ++ ['>']).flatten) ['<'] ['>']).toList fuel
      = some xs := by
  cases xs with
  | nil =>
    cases fuel <;>
      simp [SplitBetween.pipe, SplitBetween.InternalRange.toList,
        SplitBetween.InternalRange.begin, After.pipe, Search.In, view, rangeFor,
        SplitBetween.InternalItor.ne]
  | cons x rest =>
    have hx := hxs x (List.mem_cons_self _ _)
    have hbegin : After.pipe (bracketed (x :: rest)) ['<'] = x ++ '>' :: bracketed rest := by
      rw [bracketed_cons]
      exact After_pipe_char '<' [] _ (by simp)
    have := SplitBetween_rangeFor_bracketed rest x fuel hx.2
      (fun z hz => hxs z (List.mem_cons_of_mem _ hz)) (by simpa using hfuel)
    simp only [SplitBetween.InternalRange.toList, SplitBetween.InternalRange.begin,
      SplitBetween.pipe]
    rw [← bracketed, hbegin]
    exact this

/-- C9, at `<a><b><c>`: the iteration yields `a`, `b`, `c`. -/
theorem SplitBetween_bracketed_witness :
    (SplitBetween.pipe "<a><b><c>".toList ['<'] ['>']).toList 3
      = some ["a".toList, "b".toList, "c".toList] :=
  SplitBetween_bracketed ["a".toList, "b".toList, "c".toList] 3 (by decide) (by decide)

/-- C10 (the code at the failing input). The source `<abc` contains no `>`, and the iteration
of `SplitBetween{"<", ">"}` over it yields the slice `abc`: `begin()` applies `After(left)`
only, and the test `BaseRange.contains(RightDelimiter)` is made in `operator++` alone. -/
theorem SplitBetween_first_slice_unchecked :
    contains "<abc".toList ['>'] = false ∧
    ∀ k : Nat, (SplitBetween.pipe "<abc".toList ['<'] ['>']).toList (1 + k)
      = some ["abc".toList] := by
  refine ⟨by decide, fun k => rangeFor_mono _ _ _ 1 k _ _ (by decide)⟩

/-- C11. `s | Trim(c)` is a middle part of `s`: `s = a ++ result ++ b` with every character of
`a` and of `b` in `c`; the result is empty or its first and its last character are not in `c`;
and when every character of `s` is in `c` the result is empty. -/
theorem Trim_middle_part (s c : string_view) :
    (∃ a b : string_view, s = a ++ Trim.pipe s c ++ b ∧ (∀ x ∈ a, x ∈ c) ∧ (∀ x ∈ b, x ∈ c)) ∧
    (Trim.pipe s c = [] ∨
      ∃ (first last : Char), (Trim.pipe s c).head? = some first ∧ first ∉ c ∧
        (Trim.pipe s c).getLast? = some last ∧ last ∉ c) ∧
    ((∀ x ∈ s, x ∈ c) → Trim.pipe s c = []) := by
  refine ⟨Trim_decomposition s c, ?_, ?_⟩
  · by_cases hne : Trim.pipe s c = []
    · exact Or.inl hne
    · right
      have h1 : (Trim.pipe s c).head? = some ((Trim.pipe s c).head hne) :=
        List.head?_eq_head hne
      have h2 := List.getLast?_eq_getLast (Trim.pipe s c) hne
      exact ⟨_, _, h1, Trim_head_not s c _ h1, h2, Trim_last_not s c _ h2⟩
  · intro hall
    rw [Trim_pipe_eq]
    have : s.dropWhile (fun x => decide (x ∈ c)) = [] := by
      rw [List.dropWhile_eq_nil_iff]
      simpa using hall
    rw [this]
    rfl

/-- C11, at `"  a b \t"` with the exclude set of blank and tab, and at an all-blank source. -/
theorem Trim_middle_part_witness :
    Trim.pipe "  a b \t".toList " \t".toList = "a b".toList ∧
    Trim.pipe "   ".toList " \t".toList = [] ∧
    (Trim.pipe "  a b \t".toList " \t".toList = [] ∨
      ∃ (first last : Char), (Trim.pipe "  a b \t".toList " \t".toList).head? = some first ∧
        first ∉ " \t".toList ∧
        (Trim.pipe "  a b \t".toList " \t".toList).getLast? = some last ∧
        last ∉ " \t".toList) :=
  ⟨by decide, (Trim_middle_part "   ".toList " \t".toList).2.2 (by decide),
    (Trim_middle_part "  a b \t".toList " \t".toList).2.1⟩

/-- C12. `Trim` is idempotent: trimming the result of `s | Trim(c)` again with the same `c`
returns the same slice. -/
theorem Trim_idempotent (s c : string_view) :
    Trim.pipe (Trim.pipe s c) c = Trim.pipe s c :=
  Trim_fixed (Trim.pipe s c) c (Trim_head_not s c) (Trim_last_not s c)

/-- C13. For every lazy sequence that yields `e_1 .. e_m` and every integer `n`, iterating
`range | Take{n}` yields exactly the first `min(max(n, 0), m)` of them in order; in particular
nothing for `n ≤ 0` and all `m` for `m < n`. -/
theorem Take_yields_first {Itor α : Type} (r : LazyRange Itor α) (n : Int) (fuel : Nat)
    (es : List α) (h : r.toList fuel = some es) :
    (Take.pipe r n).toList fuel = some (es.take (min (max n 0).toNat es.length)) ∧
    (n ≤ 0 → (Take.pipe r n).toList fuel = some []) ∧
    ((es.length : Int) < n → (Take.pipe r n).toList fuel = some es) := by
  have hmain : (Take.pipe r n).toList fuel = some (es.take n.toNat) := by
    unfold LazyRange.toList at h ⊢
    cases hb : r.begin fuel with
    | none => simp [hb] at h
    | some it =>
      simp only [hb] at h
      have := Take_loop r n fuel fuel it n es h
      simpa [Take.pipe, hb] using this
  refine ⟨?_, ?_, ?_⟩
  · rw [hmain]
    congr 1
    have e : (max n 0).toNat = n.toNat := by omega
    rw [e, List.take_eq_take]
    omega
  · intro hn
    have e : n.toNat = 0 := by omega
    rw [hmain, e]
    rfl
  · intro hn
    rw [hmain, List.take_of_length_le (by omega)]

/-- C13, at the sequence `a`, `b`, `c` of `Split{"a,b,c"}.By(',')`: `Take{2}` yields `a`, `b`,
`Take{0}` and `Take{-1}` yield nothing, `Take{5}` yields all three. -/
theorem Take_yields_first_witness :
    (Take.pipe (Split.By "a,b,c".toList ',').range 2).toList 3
      = some ["a".toList, "b".toList] ∧
    (Take.pipe (Split.By "a,b,c".toList ',').range 0).toList 3 = some [] ∧
    (Take.pipe (Split.By "a,b,c".toList ',').range (-1)).toList 3 = some [] ∧
    (Take.pipe (Split.By "a,b,c".toList ',').range 5).toList 3
      = some ["a".toList, "b".toList, "c".toList] :=
  ⟨(Take_yields_first (Split.By "a,b,c".toList ',').range 2 3
      ["a".toList, "b".toList, "c".toList] (by decide)).1,
   (Take_yields_first (Split.By "a,b,c".toList ',').range 0 3
      ["a".toList, "b".toList, "c".toList] (by decide)).2.1 (by decide),
   (Take_yields_first (Split.By "a,b,c".toList ',').range (-1) 3
      ["a".toList, "b".toList, "c".toList] (by decide)).2.1 (by decide),
   (Take_yields_first (Split.By "a,b,c".toList ',').range 5 3
      ["a".toList, "b".toList, "c".toList] (by decide)).2.2 (by decide)⟩

/-- C14. For every lazy sequence that yields `e_1 .. e_m` and every predicate, iterating
`range | DropIf{predicate}` yields exactly the elements that do not satisfy the predicate, in
their original order: every satisfying element is removed, not only a leading run. -/
theorem DropIf_yields_filter {Itor α : Type} (r : LazyRange Itor α) (p : α → Bool)
    (fuel : Nat) (es : List α) (h : r.toList fuel = some es) :
    (DropIf.pipe r p).toList fuel = some (es.filter (fun e => !p e)) := by
  unfold LazyRange.toList at h ⊢
  cases hb : r.begin fuel with
  | none => simp [hb] at h
  | some it =>
    simp only [hb] at h
    obtain ⟨it1, h1, h2⟩ := DropIf_skip_spec r p fuel fuel it es h fuel (Nat.le_refl _)
    have hhead : ∀ d, (es.dropWhile p).head? = some d → p d = false := by
      intro d hd
      have hne2 : es.dropWhile p ≠ [] := by
        intro h0; simp [h0] at hd
      have := List.head_dropWhile_not p es hne2
      rw [List.head?_eq_head hne2] at hd
      simp only [Option.some.injEq] at hd
      rw [hd] at this
      exact this
    have h3 := DropIf_loop r p fuel fuel (Nat.le_refl _) it1 _ h2 hhead
    rw [filter_dropWhile_not] at h3
    simp only [DropIf.pipe, hb, h1]
    simpa [DropIf.pipe] using h3

/-- C14, at the sequence ` `, `a`, ` `, ` `, `b`, ` `, `c` of a `Split` with the predicate
"is a single blank": `DropIf` yields `a`, `b`, `c`. -/
theorem DropIf_yields_filter_witness :
    (DropIf.pipe (Split.By " ,a, , ,b, ,c".toList ',').range
        (fun e => e == [' '])).toList 7
      = some ["a".toList, "b".toList, "c".toList] :=
  DropIf_yields_filter (Split.By " ,a, , ,b, ,c".toList ',').range (fun e => e == [' ']) 7
    [" ".toList, "a".toList, " ".toList, " ".toList, "b".toList, " ".toList, "c".toList]
    (by decide)

/-- C15. For every source `s` and delimiter `d` the vector returned by the eager
`Split_{s}.By(d)` is, element by element and in order, the sequence of slices that iterating
the lazy `Split{s}.By(d)` yields; both come to their end within `|s|` rounds. -/
theorem Split_eager_eq_lazy (s : string_view) (d : Char) :
    (∀ fuel : Nat, Split_.By fuel s d = (Split.By s d).toList fuel) ∧
    (∀ fuel : Nat, s.length ≤ fuel → ∃ l : List string_view,
      Split_.By fuel s d = some l ∧ (Split.By s d).toList fuel = some l) := by
  have h1 : ∀ fuel : Nat, Split_.By fuel s d = (Split.By s d).toList fuel := by
    intro fuel
    have := Split_eager_loop_eq s d fuel [] 0 (Nat.zero_le _)
    simp only [List.drop_zero, List.nil_append, Option.map_id'] at this
    exact this
  refine ⟨h1, ?_⟩
  intro fuel hf
  obtain ⟨l, hl⟩ := Split_rangeFor_terminates d fuel s hf
  exact ⟨l, (h1 fuel).trans hl, hl⟩

/-- C16 (the code at the failing inputs).  With the table `{("", "")}`, `a` and `b` empty:
`In("")` returns the empty string but `In("${")` does not return (`Count("").In("${")` loops).
With the table `{("$", ""), ("$", "")}`, `a` empty and `b = "$$$"`: `In("")` returns the empty
string (estimate 2) but for `In("${$$$")` the estimate is `2 ^ 64 - 1` and `reserve` throws.
With the table `{("${x}", "12345")}`, `a` and `b` empty: `In("${")` returns `${` but for
`In("")` the estimate is `2 ^ 64 - 1` and `reserve` throws. -/
theorem BatchReplace_unterminated_failures :
    ((∀ max_size fuel : Nat,
        BatchReplace_impl.In max_size fuel [([], [])] [] = some (Except.ok [])) ∧
      (∀ max_size fuel : Nat,
        BatchReplace_impl.In max_size fuel [([], [])] ['$', '{'] = none)) ∧
    ((∀ max_size fuel : Nat,
        BatchReplace_impl.In max_size fuel [(['$'], []), (['$'], [])] []
          = if max_size < 2 then some (Except.error exception.length_error)
            else some (Except.ok [])) ∧
      (∀ max_size fuel : Nat,
        BatchReplace_impl.In max_size (fuel + 6) [(['$'], []), (['$'], [])]
            ['$', '{', '$', '$', '$']
          = if max_size < 2 ^ 64 - 1 then some (Except.error exception.length_error)
            else some (Except.ok ['$', '{', '$', '$', '$']))) ∧
    ((∀ max_size fuel : Nat,
        BatchReplace_impl.In max_size fuel [("${x}".toList, "12345".toList)] []
          = if max_size < 2 ^ 64 - 1 then some (Except.error exception.length_error)
            else some (Except.ok [])) ∧
      (∀ max_size fuel : Nat,
        BatchReplace_impl.In max_size (fuel + 3) [("${x}".toList, "12345".toList)] ['$', '{']
          = if max_size < 2 then some (Except.error exception.length_error)
            else some (Except.ok ['$', '{']))) := by
  have hloop_nil : ∀ (T : BatchReplace_impl) (fuel : Nat),
      BatchReplace_impl.In.loop T fuel [] [] = some [] := by
    intro T fuel
    cases fuel <;> simp [BatchReplace_impl.In.loop]
  have hin : ∀ (max_size fuel n : Nat) (T : BatchReplace_impl) (s r : string_view),
      BatchReplace_impl.In.TotalLength fuel T s = some n →
      BatchReplace_impl.In.loop T fuel [] s = some r →
      BatchReplace_impl.In max_size fuel T s
        = if max_size < n then some (Except.error exception.length_error)
          else some (Except.ok r) := by
    intro max_size fuel n T s r h1 h2
    unfold BatchReplace_impl.In
    rw [h1, h2]
    rfl
  refine ⟨⟨?_, ?_⟩, ⟨?_, ?_⟩, ⟨?_, ?_⟩⟩
  · intro max_size fuel
    have hT : BatchReplace_impl.In.TotalLength fuel [([], [])] [] = some 0 := by
      rw [BatchReplace_impl_In_TotalLength_empty_source]
      decide
    rw [hin max_size fuel 0 _ _ _ hT (hloop_nil _ fuel)]
    simp
  · intro max_size fuel
    have hc : Count.In fuel [] ['$', '{'] = none :=
      Count_In_loop_empty_pattern '$' ['{'] fuel (-1)
    have hT : BatchReplace_impl.In.TotalLength fuel [([], [])] ['$', '{'] = none := by
      simp [BatchReplace_impl.In.TotalLength, List.foldlM, hc]
    simp [BatchReplace_impl.In, hT]
  · intro max_size fuel
    have hT : BatchReplace_impl.In.TotalLength fuel [(['$'], []), (['$'], [])] [] = some 2 := by
      rw [BatchReplace_impl_In_TotalLength_empty_source]
      decide
    exact hin max_size fuel 2 _ _ _ hT (hloop_nil _ fuel)
  · intro max_size fuel
    have hc : Count.In (fuel + 6) ['$'] ['$', '{', '$', '$', '$'] = some 3 := by
      rw [Count_In_counts_after_leading_chars ['$'] _ (by simp) (by simp) (fuel + 6)
        (by simp)]
      decide
    have hT : BatchReplace_impl.In.TotalLength (fuel + 6) [(['$'], []), (['$'], [])]
        ['$', '{', '$', '$', '$'] = some (2 ^ 64 - 1) := by
      simp only [BatchReplace_impl.In.TotalLength, List.foldlM, hc]
      decide
    have hl : BatchReplace_impl.In.loop [(['$'], []), (['$'], [])] (fuel + 6) []
        ['$', '{', '$', '$', '$'] = some ['$', '{', '$', '$', '$'] := by
      have := BatchReplace_impl_In_loop_unterminated [(['$'], []), (['$'], [])] ['$', '$', '$'] (by decide)
        (fuel + 6) [] [] (by simp)
      simpa [hloop_nil] using this
    exact hin max_size (fuel + 6) _ _ _ _ hT hl
  · intro max_size fuel
    have hT : BatchReplace_impl.In.TotalLength fuel [("${x}".toList, "12345".toList)] []
        = some (2 ^ 64 - 1) := by
      rw [BatchReplace_impl_In_TotalLength_empty_source]
      decide
    exact hin max_size fuel _ _ _ _ hT (hloop_nil _ fuel)
  · intro max_size fuel
    have hc : Count.In (fuel + 3) "${x}".toList ['$', '{'] = some 0 := by
      rw [Count_In_counts_after_leading_chars "${x}".toList _ (by decide) (by simp) (fuel + 3)
        (by simp)]
      decide
    have hT : BatchReplace_impl.In.TotalLength (fuel + 3) [("${x}".toList, "12345".toList)]
        ['$', '{'] = some 2 := by
      simp only [BatchReplace_impl.In.TotalLength, List.foldlM, hc]
      decide
    have hl : BatchReplace_impl.In.loop [("${x}".toList, "12345".toList)] (fuel + 3) []
        ['$', '{'] = some ['$', '{'] := by
      have := BatchReplace_impl_In_loop_unterminated [("${x}".toList, "12345".toList)] [] (by decide)
        (fuel + 3) [] [] (by simp)
      simpa [hloop_nil] using this
    exact hin max_size (fuel + 3) _ _ _ _ hT hl

/-- C17 (the code at the failing input). With the zero-length pattern and a non-empty source
the loop of `Count::In` never comes to its end, whatever the fuel: the search finds the empty
pattern at the start of a `Source` that the body leaves unchanged. -/
theorem Count_In_empty_pattern_diverges :
    (∀ fuel : Nat, Count.In fuel [] ['a'] = none) ∧
    (∀ (fuel : Nat) (x : Char) (r : string_view), Count.In fuel [] (x :: r) = none) :=
  ⟨fun fuel => Count_In_loop_empty_pattern 'a' [] fuel (-1),
   fun fuel x r => Count_In_loop_empty_pattern x r fuel (-1)⟩

/-- C18 (counterexample). For the source `abc` and the bound `x`, which does not occur in it,
the start position `Search("x").In("abc") + 1` is 4, beyond the length 3. -/
theorem After_start_beyond_end :
    ¬ (Search.In "x".toList "abc".toList + "x".toList.length ≤ "abc".toList.length) := by
  decide

/-- C18 (amended). When the bound `L` occurs in `s`, the start position
`Search(L).In(s) + |L|` that `After` and `Between` compute is at most `|s|`.  When `L` does not
occur, the position is `|s| + |L|`, beyond `|s|`, and the comparison `Start < End` of `After`
selects the empty slice instead of a slice from that position. -/
theorem After_start_position (s L : string_view) :
    (L <:+: s → Search.In L s + L.length ≤ s.length) ∧
    (¬ L <:+: s →
      Search.In L s + L.length = s.length + L.length ∧
      s.length < Search.In L s + L.length ∧
      After.pipe s L = []) := by
  constructor
  · intro h
    obtain ⟨t, ht⟩ := Search_In_found L s h
    have h1 := congrArg List.length ht
    simp only [List.length_append, List.length_drop] at h1
    have h2 := Search_In_le L s
    omega
  · intro h
    have hL : 0 < L.length := by
      cases L with
      | nil => exact absurd (List.nil_infix (l := s)) h
      | cons c l => simp
    rw [Search_In_absent L s h]
    exact ⟨rfl, by omega, After_pipe_of_absent L s h⟩

/-- C18, at `AABBCC` with the bound `BB` (start position 4 of 6) and at `abc` with the absent
bound `x` (start position 4, result empty). -/
theorem After_start_position_witness :
    Search.In "BB".toList "AABBCC".toList + "BB".toList.length ≤ "AABBCC".toList.length ∧
    (Search.In "x".toList "abc".toList + "x".toList.length
        = "abc".toList.length + "x".toList.length ∧
      "abc".toList.length < Search.In "x".toList "abc".toList + "x".toList.length ∧
      After.pipe "abc".toList "x".toList = []) :=
  ⟨(After_start_position "AABBCC".toList "BB".toList).1 ⟨"AA".toList, "CC".toList, rfl⟩,
   (After_start_position "abc".toList "x".toList).2 (by decide)⟩

/-- C19 (the code at the failing input). For the empty source the size estimate of
`BatchReplace_impl::In` is not 0: with the table `{("${x}", "1")}` it is 3, and with
`{("${x}", "12345")}` it is `2 ^ 64 - 1`, because `Count(token).In("")` is `-1`. -/
theorem BatchReplace_estimate_empty_source :
    (∀ fuel : Nat,
      BatchReplace_impl.In.TotalLength fuel [("${x}".toList, "1".toList)] [] = some 3) ∧
    (∀ fuel : Nat,
      BatchReplace_impl.In.TotalLength fuel [("${x}".toList, "12345".toList)] []
        = some (2 ^ 64 - 1)) := by
  constructor
  · intro fuel
    simp only [BatchReplace_impl.In.TotalLength, List.foldlM, Count_In_nil]
    decide
  · intro fuel
    simp only [BatchReplace_impl.In.TotalLength, List.foldlM, Count_In_nil]
    decide

/-- C20. `Split` loses nothing but delimiters: the iteration of `Split{s}.By(d)` comes to its
end, and the concatenation of the yielded slices with one `d` between consecutive slices is `s`
when `s` does not end with `d`, and `s` without its final `d` when it does. -/
theorem Split_loses_only_delimiters (s : string_view) (d : Char) (fuel : Nat)
    (hfuel : s.length ≤ fuel) :
    ∃ l : List string_view, (Split.By s d).toList fuel = some l ∧
      List.intercalate [d] l = if ends_with s d then s.dropLast else s := by
  by_cases hs : s = []
  · subst hs
    refine ⟨[], Split_rangeFor_nil d fuel, ?_⟩
    simp [List.intercalate, ends_with]
  · obtain ⟨l, h1, _, h3⟩ := Split_toList_join d fuel s hs hfuel
    exact ⟨l, h1, h3⟩

/-- C20, at `a,,b,` (ends with the delimiter) and at `a,b`. -/
theorem Split_loses_only_delimiters_witness :
    (∃ l : List string_view, (Split.By "a,,b,".toList ',').toList 5 = some l ∧
      List.intercalate [','] l
        = if ends_with "a,,b,".toList ',' then "a,,b,".toList.dropLast else "a,,b,".toList) ∧
    (∃ l : List string_view, (Split.By "a,b".toList ',').toList 3 = some l ∧
      List.intercalate [','] l
        = if ends_with "a,b".toList ',' then "a,b".toList.dropLast else "a,b".toList) :=
  ⟨Split_loses_only_delimiters "a,,b,".toList ',' 5 (by decide),
   Split_loses_only_delimiters "a,b".toList ',' 3 (by decide)⟩

/-- C15, at `a,,b,`: the eager and the lazy split both give `a`, empty, `b`. -/
theorem Split_eager_eq_lazy_witness :
    ∃ l : List string_view, Split_.By 5 "a,,b,".toList ',' = some l ∧
      (Split.By "a,,b,".toList ',').toList 5 = some l :=
  (Split_eager_eq_lazy "a,,b,".toList ',').2 5 (by decide)

end StringAPI
